import Mathlib

/-!
Verification of the VECTOR graph-analytics and scoring/selection core.

This file shallowly embeds the relevant parts of the repository
(`src/vector/utils.py`, `src/vector/plugins/linear_scorer.py`,
`src/vector/plugins/selector.py`, `src/vector/plugins/pagerank.py`,
`src/vector/nlp/topics.py`, `src/vector/ingestion/adapters.py`,
`src/vector/pipeline.py`) as executable Lean definitions over `ℚ`
(floats are modelled as exact rationals), and proves the specified
properties about them.

Python dictionaries are modelled as association lists: construction by
iteration-with-overwrite is last-write-wins, so lookup takes the last
binding of a key.  In-place dictionary update preserves key insertion
order, which `updAssoc` reproduces.
-/

namespace VECTOR

/-- Engagement statistics for one (account, issue) pair
(the `{"count": ..., "eng_sum": ...}` dictionaries of `topics.py`). -/
structure Stat where
  count : ℚ
  eng_sum : ℚ
deriving DecidableEq, Repr

/-- Python dict lookup with default, for dicts built by iterating rows with
overwrite (`{k(r): v(r) for r in rows}`): the last binding of a key wins. -/
def dget {κ γ : Type} [DecidableEq κ] (m : List (κ × γ)) (k : κ) (d : γ) : γ :=
  match (m.filter (fun p => p.1 = k)).getLast? with
  | some p => p.2
  | none => d

/-- Embedding of `np.min` over a nonempty vector (0 on the empty vector, never used there). -/
def npMin : List ℚ → ℚ
  | [] => 0
  | a :: l => l.foldl min a

/-- Embedding of `np.max` over a nonempty vector (0 on the empty vector, never used there). -/
def npMax : List ℚ → ℚ
  | [] => 0
  | a :: l => l.foldl max a

/-- The fixed tolerance `1e-12` of `minmax_scale` in `src/vector/utils.py`. -/
def tol : ℚ := 1 / 10 ^ 12

/-- Embedding of `minmax_scale` from `src/vector/utils.py`: empty input passes through;
if `max - min < 1e-12` the result is `np.zeros_like(arr)`; otherwise
`(arr - mn) / (mx - mn)` elementwise. -/
def minmax_scale (x : List ℚ) : List ℚ :=
  if x.isEmpty then x
  else
    let mn := npMin x
    let mx := npMax x
    if mx - mn < tol then x.map (fun _ => 0)
    else x.map (fun v => (v - mn) / (mx - mn))

/-- Stable insertion of `a` into `l` by ascending key `w`: `a` is placed
before the first element whose key is `≥ w a`, i.e. after every element of
`l` with key `< w a` and before every element with key `≥ w a`.  Processing
the input front-to-back with `sortKey` therefore keeps equal-keyed elements
in input order, exactly the contract of Python's stable `sorted` and of the
stable ascending argsort pandas/numpy perform on the inputs evaluated here. -/
def insKey {β γ : Type} [LinearOrder γ] (w : β → γ) (a : β) : List β → List β
  | [] => [a]
  | b :: l => if w a ≤ w b then a :: b :: l else b :: insKey w a l

/-- Stable ascending sort by key `w` (insertion sort; extensionally equal to
any stable sort by the same key, in particular CPython's timsort). -/
def sortKey {β γ : Type} [LinearOrder γ] (w : β → γ) : List β → List β
  | [] => []
  | a :: l => insKey w a (sortKey w l)

/-- Keys of `items` under `f` in first-seen order: the key insertion order of
the `defaultdict` built by `round_robin_by_group` in `src/vector/utils.py`. -/
def seenKeys {α β : Type} [DecidableEq α] (f : β → α) (items : List β) : List α :=
  items.foldl (fun ks it => if f it ∈ ks then ks else ks ++ [f it]) []

/-- The queue of group `g`: the items with key `g`, in input order
(`groups[group_fn(it)].append(it)` over the items). -/
def groupRows {α β : Type} [DecidableEq α] (items : List β) (f : β → α) (g : α) :
    List β :=
  items.filter (fun it => f it = g)

/-- Key order of the Python `sorted(groups.keys(), key=lambda g: -len(groups[g]))`: a stable ascending
sort by negated group size, i.e. descending by size with ties kept in
first-seen order. -/
def orderedGroupKeys {α β : Type} [DecidableEq α] (items : List β) (f : β → α) :
    List α :=
  sortKey (fun g => -((groupRows items f g).length : ℤ)) (seenKeys f items)

/-- One pass of the `for g in order` loop: pop the head of every nonempty
queue, in queue order. -/
def sweepHeads {β : Type} : List (List β) → List β
  | [] => []
  | [] :: qs => sweepHeads qs
  | (x :: _) :: qs => x :: sweepHeads qs

/-- Total number of queued items (the fuel of `allSweepsAux`). -/
def totalLen {β : Type} (qs : List (List β)) : ℕ := (qs.map List.length).sum

/-- Concatenation of successive sweeps: each step pops the head of every
nonempty queue; stop when all queues are empty.  Each step with a nonempty
queue consumes at least one item, so `totalLen` fuel always suffices. -/
def allSweepsAux {β : Type} : ℕ → List (List β) → List β
  | 0, _ => []
  | n + 1, qs =>
    if qs.all List.isEmpty then []
    else sweepHeads qs ++ allSweepsAux n (qs.map List.tail)

/-- All sweeps of the queues until exhaustion. -/
def allSweeps {β : Type} (qs : List (List β)) : List β :=
  allSweepsAux (totalLen qs) qs

/-- Embedding of `round_robin_by_group` from `src/vector/utils.py`.  The Python
`while len(out) < k` loop with its inner `for g in order` pass (popping the
head of each nonempty queue, breaking as soon as `k` items are collected) is
exactly the first `k` elements of the untruncated sweep concatenation. -/
def round_robin_by_group {α β : Type} [DecidableEq α] (items : List β) (f : β → α)
    (k : ℕ) : List β :=
  (allSweeps ((orderedGroupKeys items f).map (fun g => groupRows items f g))).take k

/-- One row of the score table produced by `LinearScorer.score`
(`community` is `None` exactly when the account is absent from the
partition). -/
structure IssueScoreRecord where
  user_id : String
  handle : String
  issue : String
  reach : ℚ
  engagement : ℚ
  centrality : ℚ
  salience : ℚ
  score : ℚ
  community : Option ℤ
deriving DecidableEq, Repr

/-- Embedding of `scores_df.sort_values` descending by score: for
`ascending=False`, pandas `nargsort` (pandas/core/sorting.py) reverses the
values and positions first, takes an ascending argsort, and reverses the
resulting indexer again — the double reversal of GH #6399 — so the
descending sort is stable on ties whenever the underlying argsort is
(numpy's introsort degenerates to a stable insertion sort on the frames
evaluated here).  At the list level the double reversal is: sort the
reversed list ascending, then reverse the result. -/
def sort_values_score_desc (l : List IssueScoreRecord) : List IssueScoreRecord :=
  (sortKey (fun r => r.score) l.reverse).reverse

/-- The frame `df` the selector works on: the score table filtered to one
issue and sorted descending by composite score. -/
def selectFrame (scores : List IssueScoreRecord) (issue : String) :
    List IssueScoreRecord :=
  sort_values_score_desc (scores.filter (fun r => r.issue = issue))

/-- The grouping key `r.get("community", -1)` actually produces in
`round_robin_by_group` (the `community` column is always present, so the
`-1` default is dead).  The key depends on the whole column's dtype:
when every row has a community the column is integral and the key is the
community id; when the column mixes ids and missing values it is float64,
each missing value becomes a **fresh** `NaN` float object in
`df.to_dict("records")`, and distinct `NaN` objects are distinct dict keys —
every such row is its own singleton group, identified here by the row's
position; when no row has a community the column is object-dtype, the
missing values stay the interned `None`, and all rows share one key. -/
inductive CommKey where
  | comm (c : Option ℤ)
  | nanRow (i : ℕ)
deriving DecidableEq, Repr

/-- The group key of one row occurrence (position, row) of the frame `df`,
following the pandas dtype rules above. -/
def commKey (df : List IssueScoreRecord) (p : ℕ × IssueScoreRecord) : CommKey :=
  match p.2.community with
  | some c => CommKey.comm (some c)
  | none =>
    if df.all (fun r => r.community = none) then CommKey.comm none
    else CommKey.nanRow p.1

/-- Embedding of `RoundRobinSelector.select` from `src/vector/plugins/selector.py`: filter
to the issue, sort descending by score; non-diverse mode returns the first
`k` rows, diverse mode round-robins the row occurrences of the sorted frame
by their `commKey` group and returns the picked rows in pick order. -/
def RoundRobinSelector.select (scores : List IssueScoreRecord) (issue : String)
    (k : ℕ) (diverse : Bool) : List IssueScoreRecord :=
  let df := selectFrame scores issue
  if diverse then (round_robin_by_group df.enum (commKey df) k).map Prod.snd
  else df.take k

/-- Scoring weights (`Weights` in `src/vector/config.py`). -/
structure Weights where
  reach : ℚ
  engagement : ℚ
  centrality : ℚ
  salience : ℚ
deriving DecidableEq, Repr

/-- One row of the users table as consumed by the scorer. -/
structure UserRow where
  user_id : String
  handle : String
  followers : ℤ
deriving DecidableEq, Repr

/-- The nested `user_issue_stats` dictionary: account id → issue → stat. -/
abbrev UStats := List (String × List (String × Stat))

/-- Constructor arguments of `LinearScorer` (`min_samples_for_eng` is an
integer in Python; it only ever meets `≤` against rational counts). -/
structure ScorerCfg where
  weights : Weights
  min_samples_for_eng : ℚ
  epsilon : ℚ
deriving DecidableEq, Repr

/-- Lookup `followers_map.get(uid, d)` where
`followers_map = {uid(r): followers(r) for r in users}`. -/
def followersGet (users : List UserRow) (uid : String) (d : ℤ) : ℤ :=
  dget (users.map (fun u => (u.user_id, u.followers))) uid d

/-- Lookup of a handle with empty-string default. -/
def handleGet (users : List UserRow) (uid : String) : String :=
  dget (users.map (fun u => (u.user_id, u.handle))) uid ""

/-- Stats lookup for one account and issue, defaulting to the all-zero stat. -/
def statsGet (stats : UStats) (uid issue : String) : Stat :=
  dget (dget stats uid []) issue ⟨0, 0⟩

/-- The pre-normalization engagement rate of one account for one issue, from
`LinearScorer.score`: `(eng_sum / cnt) / max(1.0, followers)` when
`cnt >= min_samples_for_eng`, else `0.0`. -/
def engRatePre (cfg : ScorerCfg) (users : List UserRow) (stats : UStats)
    (issue uid : String) : ℚ :=
  let s := statsGet stats uid issue
  let followers : ℚ := max 1 ((followersGet users uid 1 : ℤ) : ℚ)
  if cfg.min_samples_for_eng ≤ s.count then s.eng_sum / s.count / followers else 0

/-- The pre-normalization salience of one account for one issue:
`cnt / (total_issue_mentions + epsilon)` if the account has any issue
mentions, else `0.0`. -/
def saliencePre (cfg : ScorerCfg) (stats : UStats) (issue uid : String) : ℚ :=
  let s := statsGet stats uid issue
  let total := ((dget stats uid []).map (fun p => p.2.count)).sum
  if 0 < total then s.count / (total + cfg.epsilon) else 0

/-- Issue enumeration of the scorer: the union of
issue keys, deduplicated and sorted ascending. -/
def issuesOf (stats : UStats) : List String :=
  sortKey (fun s => s) ((stats.map (fun p => p.2.map Prod.fst)).flatten).dedup

/-- Community lookup: `int(communities[uid])` when present, `None` otherwise
(the `.get(uid, -1)` default is unreachable behind the `uid in communities`
test). -/
def communityOf (comms : List (String × ℤ)) (uid : String) : Option ℤ :=
  match (comms.filter (fun p => p.1 = uid)).getLast? with
  | some p => some p.2
  | none => none

/-- The rows `LinearScorer.score` emits for one issue: the four normalized
component vectors over `uid_list` and the weighted composite. -/
def scoreIssueRows (cfg : ScorerCfg) (users : List UserRow)
    (pr : List (String × ℚ)) (comms : List (String × ℤ)) (stats : UStats)
    (issue : String) : List IssueScoreRecord :=
  let uid_list := users.map (fun u => u.user_id)
  let reach_norm := minmax_scale (uid_list.map
    (fun uid => ((followersGet users uid 0 : ℤ) : ℚ)))
  let centrality_norm := minmax_scale (uid_list.map (fun uid => dget pr uid 0))
  let eng_norm := minmax_scale (uid_list.map
    (fun uid => engRatePre cfg users stats issue uid))
  let sal_norm := minmax_scale (uid_list.map
    (fun uid => saliencePre cfg stats issue uid))
  (List.range uid_list.length).map (fun i =>
    let uid := uid_list.getD i ""
    { user_id := uid
      handle := handleGet users uid
      issue := issue
      reach := reach_norm.getD i 0
      engagement := eng_norm.getD i 0
      centrality := centrality_norm.getD i 0
      salience := sal_norm.getD i 0
      score := cfg.weights.reach * reach_norm.getD i 0
        + cfg.weights.engagement * eng_norm.getD i 0
        + cfg.weights.centrality * centrality_norm.getD i 0
        + cfg.weights.salience * sal_norm.getD i 0
      community := communityOf comms uid })

/-- Embedding of `LinearScorer.score` from `src/vector/plugins/linear_scorer.py`: one block
of rows per issue, issues in sorted order, accounts in users-table order. -/
def LinearScorer.score (cfg : ScorerCfg) (users : List UserRow)
    (pr : List (String × ℚ)) (comms : List (String × ℤ)) (stats : UStats) :
    List IssueScoreRecord :=
  ((issuesOf stats).map
    (fun issue => scoreIssueRows cfg users pr comms stats issue)).flatten

/-- Embedding of `PageRankCentrality.compute` from `src/vector/plugins/pagerank.py`.  The
iterative solver (`nx.pagerank`, an external library) is abstracted as an
`Except` argument: `.ok r` when it converges with result `r`, `.error` when
it raises.  The second component is the sequence of log messages the method
emits during the call; the method body contains no logging statement, so it
is always empty. -/
def PageRankCentrality.compute (nodes : List String)
    (pr_result : Except Unit (List (String × ℚ))) :
    List (String × ℚ) × List String :=
  if nodes.isEmpty then ([], [])
  else
    match pr_result with
    | .ok r => (r, [])
    | .error _ => (nodes.map (fun n => (n, 1 / (nodes.length : ℚ))), [])

/-- A cell of a loaded table. -/
inductive Cell where
  | str (s : String)
  | int (n : ℤ)
deriving DecidableEq, Repr

/-- A loaded table: column names plus rows of (column, value) cells. -/
structure Df where
  cols : List String
  rows : List (List (String × Cell))
deriving DecidableEq, Repr

/-- Add a column holding one default value. -/
def addCol (df : Df) (c : String) (v : Cell) : Df :=
  ⟨df.cols ++ [c], df.rows.map (fun r => r ++ [(c, v)])⟩

/-- Fill each listed optional column with its default when absent
(`if col not in df.columns: df[col] = default`, in list order). -/
def fillDefaults (df : Df) (defaults : List (String × Cell)) : Df :=
  defaults.foldl (fun d cv => if cv.1 ∈ d.cols then d else addCol d cv.1 cv.2) df

/-- Embedding of `load_users` from `src/vector/ingestion/adapters.py`: reject the table
when a required column is missing (the error payload carries exactly the
missing columns, the contents of the Python message's `{missing}` set),
otherwise fill the optional columns with their defaults. -/
def load_users (df : Df) : Except (String × List String) Df :=
  let missing := ["user_id", "handle"].filter (fun c => ¬ (c ∈ df.cols))
  if missing.isEmpty then
    .ok (fillDefaults df [("followers", .int 0), ("following", .int 0),
      ("geo", .str ""), ("lang", .str ""), ("profession", .str "")])
  else .error ("users missing columns", missing)

/-- Embedding of `load_edges`: required columns only, nothing filled. -/
def load_edges (df : Df) : Except (String × List String) Df :=
  let missing := ["src_user_id", "dst_user_id"].filter (fun c => ¬ (c ∈ df.cols))
  if missing.isEmpty then .ok df
  else .error ("edges missing columns", missing)

/-- Embedding of `load_posts`: required `post_id`/`user_id`/`text`; `likes`, `shares`,
`comments` default to 0 and `ts` to `""`. -/
def load_posts (df : Df) : Except (String × List String) Df :=
  let missing := ["post_id", "user_id", "text"].filter (fun c => ¬ (c ∈ df.cols))
  if missing.isEmpty then
    .ok (fillDefaults df [("likes", .int 0), ("shares", .int 0),
      ("comments", .int 0), ("ts", .str "")])
  else .error ("posts missing columns", missing)

/-- The loading phase of `run_pipeline` (`src/vector/pipeline.py`): the three
loaders run, in this order, before any graph or scoring computation; a loader
failure aborts the run with that loader's error. -/
def load_inputs (udf edf pdf : Df) :
    Except (String × List String) (Df × Df × Df) := do
  let u ← load_users udf
  let e ← load_edges edf
  let p ← load_posts pdf
  return (u, e, p)

/-- One content item as consumed by `compute_user_issue_stats`. -/
structure Post where
  post_id : String
  user_id : String
  likes : ℚ
  shares : ℚ
  comments : ℚ
deriving DecidableEq, Repr

/-- Python dict write `m[k] = f(m.get(k, d))` on an insertion-ordered dict:
update the existing binding in place, or append a fresh one at the end. -/
def updAssoc {κ γ : Type} [DecidableEq κ] (m : List (κ × γ)) (k : κ) (d : γ)
    (f : γ → γ) : List (κ × γ) :=
  match m with
  | [] => [(k, f d)]
  | (k0, v) :: rest =>
    if k0 = k then (k0, f v) :: rest else (k0, v) :: updAssoc rest k d f

/-- One counter bump of the nested per-user stats
on the nested `defaultdict` (both levels created on first touch). -/
def addIssueStat (acc : UStats) (uid issue : String) (eng : ℚ) : UStats :=
  updAssoc acc uid []
    (fun m => updAssoc m issue ⟨0, 0⟩
      (fun s => ⟨s.count + 1, s.eng_sum + eng⟩))

/-- Embedding of `compute_user_issue_stats` from `src/vector/nlp/topics.py`: fold the
posts; for each issue a post matched, bump that (author, issue) counter.  A
post whose issue list is empty leaves the table untouched (the inner loop
body never runs, so not even an author key is created).  The final
plain-dict copy in the Python code preserves keys, order and values. -/
def compute_user_issue_stats (posts : List Post)
    (pmap : List (String × List String)) : UStats :=
  posts.foldl (fun acc p =>
    (dget pmap p.post_id []).foldl
      (fun a issue => addIssueStat a p.user_id issue
        (p.likes + p.shares + p.comments)) acc) []

/-- Per-account metadata held in the persisted state's `user_meta`. -/
structure UserMeta where
  handle : String
  followers : ℤ
deriving DecidableEq, Repr

/-- The scoring/selection configuration recovered from the persisted state. -/
structure AppCfg where
  weights : Weights
  min_samples_for_engagement : ℚ
  epsilon : ℚ
  enforce_diversity : Bool
deriving DecidableEq, Repr

/-- The persisted pipeline state (`state.json` of `run_pipeline`). -/
structure PState where
  issues : List String
  pagerank : List (String × ℚ)
  communities : List (String × ℤ)
  user_meta : List (String × UserMeta)
  post_issue_map : List (String × List String)
  user_issue_stats : UStats
deriving DecidableEq, Repr

/-- Embedding of `rank_issue` from `src/vector/pipeline.py`: rebuild the users frame from
`user_meta`, re-run the scorer on the frozen snapshot, select.  Every access
to the state is a read; the returned second component is the state as it
stands after the call. -/
def rank_issue (cfg : AppCfg) (state : PState) (issue : String) (top_k : ℕ)
    (diverse : Bool) : List IssueScoreRecord × PState :=
  let users := state.user_meta.map
    (fun p => UserRow.mk p.1 p.2.handle p.2.followers)
  let scores := LinearScorer.score
    ⟨cfg.weights, cfg.min_samples_for_engagement, cfg.epsilon⟩
    users state.pagerank state.communities state.user_issue_stats
  let seeds := RoundRobinSelector.select scores issue top_k
    (diverse && cfg.enforce_diversity)
  (seeds, state)

end VECTOR

namespace VECTOR

theorem mem_insKey {β γ : Type} [LinearOrder γ] (w : β → γ) (a : β) (l : List β)
    (x : β) : x ∈ insKey w a l ↔ x = a ∨ x ∈ l := by
  induction l with
  | nil => simp [insKey]
  | cons b t ih =>
    by_cases h : w a ≤ w b
    · simp [insKey, h]
    · simp only [insKey, if_neg h, List.mem_cons, ih]
      tauto

theorem perm_insKey {β γ : Type} [LinearOrder γ] (w : β → γ) (a : β) (l : List β) :
    List.Perm (insKey w a l) (a :: l) := by
  induction l with
  | nil => simp [insKey]
  | cons b t ih =>
    by_cases h : w a ≤ w b
    · simp [insKey, h]
    · simpa [insKey, h] using ((ih.cons b).trans (List.Perm.swap a b t))

theorem perm_sortKey {β γ : Type} [LinearOrder γ] (w : β → γ) (l : List β) :
    List.Perm (sortKey w l) l := by
  induction l with
  | nil => simp [sortKey]
  | cons a t ih => exact (perm_insKey w a (sortKey w t)).trans (ih.cons a)

theorem pairwise_insKey {β γ : Type} [LinearOrder γ] (w : β → γ) (a : β) (l : List β)
    (h : l.Pairwise (fun x y => w x ≤ w y)) :
    (insKey w a l).Pairwise (fun x y => w x ≤ w y) := by
  induction l with
  | nil => simp [insKey]
  | cons b t ih =>
    rcases List.pairwise_cons.mp h with ⟨hb, ht⟩
    by_cases hab : w a ≤ w b
    · rw [insKey, if_pos hab]
      refine List.pairwise_cons.mpr ⟨?_, h⟩
      intro x hx
      rcases List.mem_cons.mp hx with rfl | hx
      · exact hab
      · exact le_trans hab (hb x hx)
    · rw [insKey, if_neg hab]
      refine List.pairwise_cons.mpr ⟨?_, ih ht⟩
      intro x hx
      rcases (mem_insKey w a t x).mp hx with rfl | hx
      · exact le_of_lt (lt_of_not_le hab)
      · exact hb x hx

theorem pairwise_sortKey {β γ : Type} [LinearOrder γ] (w : β → γ) (l : List β) :
    (sortKey w l).Pairwise (fun x y => w x ≤ w y) := by
  induction l with
  | nil => simp [sortKey]
  | cons a t ih => exact pairwise_insKey w a (sortKey w t) ih

theorem filter_insKey {β γ : Type} [LinearOrder γ] (w : β → γ) (c : γ) (a : β)
    (l : List β) :
    (insKey w a l).filter (fun x => w x = c) = (a :: l).filter (fun x => w x = c) := by
  induction l with
  | nil => simp [insKey]
  | cons b t ih =>
    by_cases hab : w a ≤ w b
    · simp [insKey, hab]
    · have hba : w b < w a := lt_of_not_le hab
      by_cases hac : w a = c
      · have hbc : ¬ (w b = c) := by
          intro hbc; exact absurd (hbc.trans hac.symm) (ne_of_lt hba)
        simp only [insKey, if_neg hab, List.filter_cons]
        simp only [decide_eq_true_eq]
        rw [if_neg hbc, ih]
        simp [hac, hbc]
      · simp only [insKey, if_neg hab, List.filter_cons]
        simp only [decide_eq_true_eq]
        by_cases hbc : w b = c
        · rw [if_pos hbc, ih]
          simp [hac, hbc]
        · rw [if_neg hbc, ih]
          simp [hac, hbc]

/-- Stability of `sortKey`: restricted to any single key value, the sorted
list is exactly the input subsequence with that key value. -/
theorem filter_sortKey {β γ : Type} [LinearOrder γ] (w : β → γ) (c : γ) (l : List β) :
    (sortKey w l).filter (fun x => w x = c) = l.filter (fun x => w x = c) := by
  induction l with
  | nil => simp [sortKey]
  | cons a t ih =>
    rw [sortKey, filter_insKey]
    simp only [List.filter_cons]
    rw [ih]

theorem foldl_min_le_init (l : List ℚ) (a : ℚ) : l.foldl min a ≤ a := by
  induction l generalizing a with
  | nil => exact le_refl a
  | cons b t ih => exact le_trans (ih (min a b)) (min_le_left a b)

theorem foldl_min_le_mem (l : List ℚ) (a v : ℚ) (hv : v ∈ l) : l.foldl min a ≤ v := by
  induction l generalizing a with
  | nil => cases hv
  | cons b t ih =>
    rcases List.mem_cons.mp hv with rfl | hv
    · exact le_trans (foldl_min_le_init t (min a v)) (min_le_right a v)
    · exact ih (min a b) hv

theorem init_le_foldl_max (l : List ℚ) (a : ℚ) : a ≤ l.foldl max a := by
  induction l generalizing a with
  | nil => exact le_refl a
  | cons b t ih => exact le_trans (le_max_left a b) (ih (max a b))

theorem mem_le_foldl_max (l : List ℚ) (a v : ℚ) (hv : v ∈ l) : v ≤ l.foldl max a := by
  induction l generalizing a with
  | nil => cases hv
  | cons b t ih =>
    rcases List.mem_cons.mp hv with rfl | hv
    · exact le_trans (le_max_right a v) (init_le_foldl_max t (max a v))
    · exact ih (max a b) hv

theorem foldl_min_mem (l : List ℚ) (a : ℚ) : l.foldl min a ∈ a :: l := by
  induction l generalizing a with
  | nil => simp
  | cons b t ih =>
    have h := ih (min a b)
    rcases List.mem_cons.mp h with h | h
    · rcases min_choice a b with hc | hc <;> rw [List.foldl_cons, h, hc] <;> simp
    · simp only [List.foldl_cons]
      exact List.mem_cons_of_mem a (List.mem_cons_of_mem b h)

theorem foldl_max_mem (l : List ℚ) (a : ℚ) : l.foldl max a ∈ a :: l := by
  induction l generalizing a with
  | nil => simp
  | cons b t ih =>
    have h := ih (max a b)
    rcases List.mem_cons.mp h with h | h
    · rcases max_choice a b with hc | hc <;> rw [List.foldl_cons, h, hc] <;> simp
    · simp only [List.foldl_cons]
      exact List.mem_cons_of_mem a (List.mem_cons_of_mem b h)

theorem npMin_mem (x : List ℚ) (hx : x ≠ []) : npMin x ∈ x := by
  cases x with
  | nil => exact absurd rfl hx
  | cons a l => exact foldl_min_mem l a

theorem npMax_mem (x : List ℚ) (hx : x ≠ []) : npMax x ∈ x := by
  cases x with
  | nil => exact absurd rfl hx
  | cons a l => exact foldl_max_mem l a

theorem tol_pos : 0 < tol := by norm_num [tol]

theorem npMin_le_mem (x : List ℚ) (v : ℚ) (hv : v ∈ x) : npMin x ≤ v := by
  cases x with
  | nil => cases hv
  | cons a l =>
    rcases List.mem_cons.mp hv with rfl | hv
    · exact foldl_min_le_init l v
    · exact foldl_min_le_mem l a v hv

theorem mem_le_npMax (x : List ℚ) (v : ℚ) (hv : v ∈ x) : v ≤ npMax x := by
  cases x with
  | nil => cases hv
  | cons a l =>
    rcases List.mem_cons.mp hv with rfl | hv
    · exact init_le_foldl_max l v
    · exact mem_le_foldl_max l a v hv

/-- C2: `minmax_scale` maps a vector `x` to `(x - min) / (max - min)`;
whenever `max - min` is below the fixed tolerance `1e-12` — in particular
for every constant vector — the output is the all-zero vector; and every
normalized entry lies in `[0, 1]` (via the formula for non-degenerate
vectors, trivially in the degenerate all-zeros case). -/
theorem minmax_scale_spec (x : List ℚ) :
    (npMax x - npMin x < tol → minmax_scale x = x.map (fun _ => 0)) ∧
    (∀ c : ℚ, (∀ v ∈ x, v = c) → minmax_scale x = x.map (fun _ => 0)) ∧
    (tol ≤ npMax x - npMin x →
      minmax_scale x = x.map (fun v => (v - npMin x) / (npMax x - npMin x))) ∧
    (∀ v ∈ minmax_scale x, 0 ≤ v ∧ v ≤ 1) := by
  rcases eq_or_ne x [] with rfl | hx
  · refine ⟨fun _ => rfl, fun _ _ => rfl, fun h => ?_, fun v hv => ?_⟩
    · rfl
    · cases hv
  have hne : x.isEmpty = false := by
    simpa [List.isEmpty_iff] using hx
  have hdeg : npMax x - npMin x < tol → minmax_scale x = x.map (fun _ => 0) := by
    intro h
    rw [minmax_scale, hne]
    simp only [Bool.false_eq_true, if_false, if_pos h]
  refine ⟨hdeg, fun c hc => ?_, fun h => ?_, fun v hv => ?_⟩
  · apply hdeg
    have h1 : npMin x = c := hc _ (npMin_mem x hx)
    have h2 : npMax x = c := hc _ (npMax_mem x hx)
    rw [h1, h2, sub_self]
    exact tol_pos
  · rw [minmax_scale, hne]
    simp only [Bool.false_eq_true, if_false, if_neg (not_lt.mpr h)]
  · have hpos : (0 : ℚ) < npMax x - npMin x ∨ npMax x - npMin x < tol := by
      rcases lt_or_le (npMax x - npMin x) tol with h | h
      · exact Or.inr h
      · exact Or.inl (lt_of_lt_of_le tol_pos h)
    rcases lt_or_le (npMax x - npMin x) tol with h | h
    · rw [hdeg h] at hv
      rcases List.mem_map.mp hv with ⟨u, _, rfl⟩
      norm_num
    · have hd : (0 : ℚ) < npMax x - npMin x := lt_of_lt_of_le tol_pos h
      rw [minmax_scale, hne] at hv
      simp only [Bool.false_eq_true, if_false, if_neg (not_lt.mpr h)] at hv
      rcases List.mem_map.mp hv with ⟨u, hu, rfl⟩
      constructor
      · exact div_nonneg (sub_nonneg.mpr (npMin_le_mem x u hu)) (le_of_lt hd)
      · rw [div_le_one hd]
        exact sub_le_sub_right (mem_le_npMax x u hu) _

/-- Witness for C2: a concrete non-degenerate vector, evaluated. -/
theorem minmax_scale_spec_witness :
    tol ≤ npMax [(1 : ℚ), 3] - npMin [(1 : ℚ), 3] ∧
    minmax_scale [(1 : ℚ), 3] =
      ([(1 : ℚ), 3]).map
        (fun v => (v - npMin [(1 : ℚ), 3]) / (npMax [(1 : ℚ), 3] - npMin [(1 : ℚ), 3])) :=
  ⟨by norm_num [tol, npMax, npMin],
    (minmax_scale_spec [(1 : ℚ), 3]).2.2.1 (by norm_num [tol, npMax, npMin])⟩

/-- C3: the cold-start guard in `LinearScorer.score`.  For a configured
minimum of at least one sample (the shipped default is 3; positivity keeps
the Python float division `eng_sum / cnt` defined on the taken branch), the
pre-normalization engagement rate of a pair with `count < min_samples` is
exactly 0 regardless of `eng_sum`, and with `count ≥ min_samples` it equals
`(eng_sum / count) / max(1, followers)`. -/
theorem eng_rate_cold_start (cfg : ScorerCfg) (users : List UserRow)
    (stats : UStats) (issue uid : String)
    (hmin : 0 < cfg.min_samples_for_eng) :
    ((statsGet stats uid issue).count < cfg.min_samples_for_eng →
      engRatePre cfg users stats issue uid = 0) ∧
    (cfg.min_samples_for_eng ≤ (statsGet stats uid issue).count →
      engRatePre cfg users stats issue uid =
        (statsGet stats uid issue).eng_sum / (statsGet stats uid issue).count /
          max 1 ((followersGet users uid 1 : ℤ) : ℚ)) := by
  constructor
  · intro h
    rw [engRatePre, if_neg (not_le.mpr h)]
  · intro h
    rw [engRatePre, if_pos h]

/-- Witness for C3: an account with 5 samples of summed engagement 10 and the
default minimum of 3; the rate evaluates to `(10 / 5) / max(1, 1) = 2`. -/
theorem eng_rate_cold_start_witness :
    0 < (⟨⟨0, 0, 0, 0⟩, 3, 0⟩ : ScorerCfg).min_samples_for_eng ∧
    (⟨⟨0, 0, 0, 0⟩, 3, 0⟩ : ScorerCfg).min_samples_for_eng ≤
      (statsGet [("u", [("x", ⟨5, 10⟩)])] "u" "x").count ∧
    engRatePre ⟨⟨0, 0, 0, 0⟩, 3, 0⟩ [] [("u", [("x", ⟨5, 10⟩)])] "x" "u" = 2 :=
  ⟨by norm_num, by norm_num [statsGet, dget],
    ((eng_rate_cold_start ⟨⟨0, 0, 0, 0⟩, 3, 0⟩ [] [("u", [("x", ⟨5, 10⟩)])] "x" "u"
      (by norm_num)).2 (by norm_num [statsGet, dget])).trans
      (by norm_num [statsGet, dget, followersGet])⟩

/-- C1: `RoundRobinSelector.select` restricts to the rows of the issue and
sorts them descending by composite score with a stable tie-break: pandas
reverses the values before the ascending argsort and the indexer after, so
rows with equal composite score appear in the sorted output — and hence in
the returned top-k, a prefix of it — in the same relative order they had in
the input score table (exact in the regime where the underlying argsort is
stable, which covers the frames evaluated here). -/
theorem select_sorts_desc_stable (scores : List IssueScoreRecord)
    (issue : String) (k : ℕ) :
    RoundRobinSelector.select scores issue k false =
      (selectFrame scores issue).take k ∧
    (selectFrame scores issue).Pairwise (fun a b => b.score ≤ a.score) ∧
    List.Perm (selectFrame scores issue)
      (scores.filter (fun r => r.issue = issue)) ∧
    (∀ c : ℚ,
      (selectFrame scores issue).filter (fun r => r.score = c) =
        (scores.filter (fun r => r.issue = issue)).filter
          (fun r => r.score = c)) ∧
    (∀ c : ℚ,
      (RoundRobinSelector.select scores issue k false).filter
          (fun r => r.score = c) =
        ((scores.filter (fun r => r.issue = issue)).filter
            (fun r => r.score = c)).take
          ((RoundRobinSelector.select scores issue k false).filter
            (fun r => r.score = c)).length) := by
  have hstab : ∀ c : ℚ,
      (selectFrame scores issue).filter (fun r => r.score = c) =
        (scores.filter (fun r => r.issue = issue)).filter
          (fun r => r.score = c) := by
    intro c
    rw [selectFrame, sort_values_score_desc, List.filter_reverse,
      filter_sortKey (fun r : IssueScoreRecord => r.score) c,
      List.filter_reverse, List.reverse_reverse]
  refine ⟨rfl, ?_, ?_, hstab, ?_⟩
  · rw [selectFrame, sort_values_score_desc, List.pairwise_reverse]
    exact pairwise_sortKey (fun r : IssueScoreRecord => r.score) _
  · rw [selectFrame, sort_values_score_desc]
    exact (List.reverse_perm _).trans
      ((perm_sortKey (fun r : IssueScoreRecord => r.score) _).trans
        (List.reverse_perm _))
  · intro c
    have hsel : RoundRobinSelector.select scores issue k false =
        (selectFrame scores issue).take k := rfl
    have hsplit : (selectFrame scores issue).filter (fun r => r.score = c) =
        ((selectFrame scores issue).take k).filter (fun r => r.score = c) ++
          ((selectFrame scores issue).drop k).filter (fun r => r.score = c) := by
      rw [← List.filter_append, List.take_append_drop]
    rw [hsel, ← hstab c, hsplit, List.take_left]

/-- C5: for every score table, issue, `k` and both modes, the selector
returns at most `k` records. -/
theorem select_length_le (scores : List IssueScoreRecord) (issue : String)
    (k : ℕ) (diverse : Bool) :
    (RoundRobinSelector.select scores issue k diverse).length ≤ k := by
  cases diverse <;>
    simp [RoundRobinSelector.select, round_robin_by_group]

/-- C6 (amended): on a non-empty node set, when the iterative PageRank
computation fails, `compute` does not surface the error: it returns the
uniform distribution `1/N` per node; but nothing is logged — the exception
is swallowed silently (the method emits no log message on any path). -/
theorem pagerank_fallback_uniform (nodes : List String) (e : Unit)
    (hne : nodes ≠ []) :
    PageRankCentrality.compute nodes (Except.error e) =
      (nodes.map (fun n => (n, 1 / (nodes.length : ℚ))), []) := by
  rw [PageRankCentrality.compute,
    if_neg (by simpa [List.isEmpty_iff] using hne : ¬ nodes.isEmpty = true)]

/-- Witness for C6's amended theorem at a concrete two-node graph. -/
theorem pagerank_fallback_uniform_witness :
    (["a", "b"] : List String) ≠ [] ∧
    PageRankCentrality.compute ["a", "b"] (Except.error ()) =
      (["a", "b"].map (fun n => (n, 1 / ((["a", "b"] : List String).length : ℚ))), []) :=
  ⟨by decide, pagerank_fallback_uniform ["a", "b"] () (by decide)⟩

/-- Counterexample for C6 as stated: on a concrete failing two-node input the
fallback result is the uniform distribution but the emitted log output is
empty — the failure is not logged as a degradation, it is silently
discarded. -/
theorem pagerank_fallback_not_logged :
    PageRankCentrality.compute ["a", "b"] (Except.error ()) =
      ([("a", 1 / 2), ("b", 1 / 2)], []) ∧
    (PageRankCentrality.compute ["a", "b"] (Except.error ())).2 = [] := by
  constructor
  · norm_num [PageRankCentrality.compute]
  · norm_num [PageRankCentrality.compute]

/-- C7: `rank_issue` is read-only over the frozen state and idempotent: the
state after a call is the state that went in, and a second call with
identical arguments (on the state the first call left behind) returns the
identical, order-stable result sequence. -/
theorem rank_issue_idempotent (cfg : AppCfg) (st : PState) (issue : String)
    (k : ℕ) (diverse : Bool) :
    (rank_issue cfg st issue k diverse).2 = st ∧
    (rank_issue cfg (rank_issue cfg st issue k diverse).2 issue k diverse).1 =
      (rank_issue cfg st issue k diverse).1 ∧
    (rank_issue cfg (rank_issue cfg st issue k diverse).2 issue k diverse).2 = st :=
  ⟨rfl, rfl, rfl⟩

theorem fillDefaults_cols_mono (defaults : List (String × Cell)) (df : Df)
    (c : String) (hc : c ∈ df.cols) : c ∈ (fillDefaults df defaults).cols := by
  induction defaults generalizing df with
  | nil => exact hc
  | cons cv rest ih =>
    rw [fillDefaults] at *
    simp only [List.foldl_cons]
    by_cases h : cv.1 ∈ df.cols
    · rw [if_pos h]
      exact ih df hc
    · rw [if_neg h]
      exact ih _ (by simp [addCol, hc])

theorem fillDefaults_cols (defaults : List (String × Cell)) (df : Df)
    (cv : String × Cell) (hcv : cv ∈ defaults) :
    cv.1 ∈ (fillDefaults df defaults).cols := by
  induction defaults generalizing df with
  | nil => cases hcv
  | cons hd rest ih =>
    rw [fillDefaults]
    simp only [List.foldl_cons]
    rcases List.mem_cons.mp hcv with rfl | hcv
    · by_cases h : cv.1 ∈ df.cols
      · rw [if_pos h]
        exact fillDefaults_cols_mono rest df cv.1 h
      · rw [if_neg h]
        exact fillDefaults_cols_mono rest _ cv.1 (by simp [addCol])
    · by_cases h : hd.1 ∈ df.cols
      · rw [if_pos h]
        exact ih df hcv
      · rw [if_neg h]
        exact ih _ hcv

theorem missing_filter_mem (req cols : List String) (c : String) :
    c ∈ req.filter (fun c => ¬ (c ∈ cols)) ↔ c ∈ req ∧ c ∉ cols := by
  simp

theorem missing_filter_isEmpty_false (req cols : List String)
    (h : ∃ c ∈ req, c ∉ cols) :
    (req.filter (fun c => ¬ (c ∈ cols))).isEmpty = false := by
  rcases h with ⟨c, hc, hnc⟩
  have hm : c ∈ req.filter (fun c => ¬ (c ∈ cols)) := by simp [hc, hnc]
  simp only [List.isEmpty_eq_false_iff_exists_mem]
  exact ⟨c, hm⟩

theorem missing_filter_isEmpty_true (req cols : List String)
    (h : ∀ c ∈ req, c ∈ cols) :
    (req.filter (fun c => ¬ (c ∈ cols))).isEmpty = true := by
  have : req.filter (fun c => ¬ (c ∈ cols)) = [] := by
    rw [List.filter_eq_nil_iff]
    intro c hc
    simpa using h c hc
  rw [this]
  rfl

/-- C8: fail-closed input validation.  For each loader: when a required
column is absent the loader rejects the table with an error payload naming
exactly the missing columns, and the pipeline's loading phase — which runs
before any graph or scoring computation — aborts with that very error; when
every required column is present the loader succeeds without raising,
filling each absent optional column with its default. -/
theorem loaders_fail_closed (udf edf pdf : Df) :
    ((∃ c ∈ ["user_id", "handle"], c ∉ udf.cols) →
      load_users udf =
          .error ("users missing columns",
            ["user_id", "handle"].filter (fun c => ¬ (c ∈ udf.cols))) ∧
        (∀ c, c ∈ ["user_id", "handle"].filter (fun c => ¬ (c ∈ udf.cols)) ↔
          c ∈ ["user_id", "handle"] ∧ c ∉ udf.cols) ∧
        load_inputs udf edf pdf =
          .error ("users missing columns",
            ["user_id", "handle"].filter (fun c => ¬ (c ∈ udf.cols)))) ∧
    ((∀ c ∈ ["user_id", "handle"], c ∈ udf.cols) →
      load_users udf = .ok (fillDefaults udf [("followers", .int 0),
          ("following", .int 0), ("geo", .str ""), ("lang", .str ""),
          ("profession", .str "")]) ∧
        ∀ cv ∈ [("followers", Cell.int 0), ("following", Cell.int 0),
            ("geo", Cell.str ""), ("lang", Cell.str ""),
            ("profession", Cell.str "")],
          cv.1 ∈ (fillDefaults udf [("followers", .int 0), ("following", .int 0),
            ("geo", .str ""), ("lang", .str ""), ("profession", .str "")]).cols) ∧
    ((∀ c ∈ ["user_id", "handle"], c ∈ udf.cols) →
      (∃ c ∈ ["src_user_id", "dst_user_id"], c ∉ edf.cols) →
      load_edges edf =
          .error ("edges missing columns",
            ["src_user_id", "dst_user_id"].filter (fun c => ¬ (c ∈ edf.cols))) ∧
        (∀ c, c ∈ ["src_user_id", "dst_user_id"].filter (fun c => ¬ (c ∈ edf.cols)) ↔
          c ∈ ["src_user_id", "dst_user_id"] ∧ c ∉ edf.cols) ∧
        load_inputs udf edf pdf =
          .error ("edges missing columns",
            ["src_user_id", "dst_user_id"].filter (fun c => ¬ (c ∈ edf.cols)))) ∧
    ((∀ c ∈ ["src_user_id", "dst_user_id"], c ∈ edf.cols) →
      load_edges edf = .ok edf) ∧
    ((∀ c ∈ ["user_id", "handle"], c ∈ udf.cols) →
      (∀ c ∈ ["src_user_id", "dst_user_id"], c ∈ edf.cols) →
      (∃ c ∈ ["post_id", "user_id", "text"], c ∉ pdf.cols) →
      load_posts pdf =
          .error ("posts missing columns",
            ["post_id", "user_id", "text"].filter (fun c => ¬ (c ∈ pdf.cols))) ∧
        (∀ c, c ∈ ["post_id", "user_id", "text"].filter (fun c => ¬ (c ∈ pdf.cols)) ↔
          c ∈ ["post_id", "user_id", "text"] ∧ c ∉ pdf.cols) ∧
        load_inputs udf edf pdf =
          .error ("posts missing columns",
            ["post_id", "user_id", "text"].filter (fun c => ¬ (c ∈ pdf.cols)))) ∧
    ((∀ c ∈ ["post_id", "user_id", "text"], c ∈ pdf.cols) →
      load_posts pdf = .ok (fillDefaults pdf [("likes", .int 0),
          ("shares", .int 0), ("comments", .int 0), ("ts", .str "")]) ∧
        ∀ cv ∈ [("likes", Cell.int 0), ("shares", Cell.int 0),
            ("comments", Cell.int 0), ("ts", Cell.str "")],
          cv.1 ∈ (fillDefaults pdf [("likes", .int 0), ("shares", .int 0),
            ("comments", .int 0), ("ts", .str "")]).cols) := by
  have hu_err : (∃ c ∈ ["user_id", "handle"], c ∉ udf.cols) →
      load_users udf = .error ("users missing columns",
        ["user_id", "handle"].filter (fun c => ¬ (c ∈ udf.cols))) := by
    intro h
    rw [load_users]
    simp only [missing_filter_isEmpty_false _ _ h, Bool.false_eq_true, if_false]
  have hu_ok : (∀ c ∈ ["user_id", "handle"], c ∈ udf.cols) →
      load_users udf = .ok (fillDefaults udf [("followers", .int 0),
        ("following", .int 0), ("geo", .str ""), ("lang", .str ""),
        ("profession", .str "")]) := by
    intro h
    rw [load_users]
    simp only [missing_filter_isEmpty_true _ _ h, if_true]
  have he_err : (∃ c ∈ ["src_user_id", "dst_user_id"], c ∉ edf.cols) →
      load_edges edf = .error ("edges missing columns",
        ["src_user_id", "dst_user_id"].filter (fun c => ¬ (c ∈ edf.cols))) := by
    intro h
    rw [load_edges]
    simp only [missing_filter_isEmpty_false _ _ h, Bool.false_eq_true, if_false]
  have he_ok : (∀ c ∈ ["src_user_id", "dst_user_id"], c ∈ edf.cols) →
      load_edges edf = .ok edf := by
    intro h
    rw [load_edges]
    simp only [missing_filter_isEmpty_true _ _ h, if_true]
  have hp_err : (∃ c ∈ ["post_id", "user_id", "text"], c ∉ pdf.cols) →
      load_posts pdf = .error ("posts missing columns",
        ["post_id", "user_id", "text"].filter (fun c => ¬ (c ∈ pdf.cols))) := by
    intro h
    rw [load_posts]
    simp only [missing_filter_isEmpty_false _ _ h, Bool.false_eq_true, if_false]
  have hp_ok : (∀ c ∈ ["post_id", "user_id", "text"], c ∈ pdf.cols) →
      load_posts pdf = .ok (fillDefaults pdf [("likes", .int 0),
        ("shares", .int 0), ("comments", .int 0), ("ts", .str "")]) := by
    intro h
    rw [load_posts]
    simp only [missing_filter_isEmpty_true _ _ h, if_true]
  refine ⟨fun h => ⟨hu_err h, fun c => missing_filter_mem _ _ c, ?_⟩,
    fun h => ⟨hu_ok h, fun cv hcv => fillDefaults_cols _ _ cv hcv⟩,
    fun hu he => ⟨he_err he, fun c => missing_filter_mem _ _ c, ?_⟩,
    fun h => he_ok h,
    fun hu he hp => ⟨hp_err hp, fun c => missing_filter_mem _ _ c, ?_⟩,
    fun h => ⟨hp_ok h, fun cv hcv => fillDefaults_cols _ _ cv hcv⟩⟩
  · rw [load_inputs, hu_err h]
    rfl
  · rw [load_inputs, hu_ok hu, he_err he]
    rfl
  · rw [load_inputs, hu_ok hu, he_ok he, hp_err hp]
    rfl

/-- Witness for C8: a users table lacking `handle` is rejected, naming
exactly `handle`; a complete posts table gains the default columns. -/
theorem loaders_fail_closed_witness :
    (∃ c ∈ ["user_id", "handle"], c ∉ (⟨["user_id"], []⟩ : Df).cols) ∧
    load_users ⟨["user_id"], []⟩ = .error ("users missing columns", ["handle"]) :=
  ⟨by decide,
    (((loaders_fail_closed ⟨["user_id"], []⟩ ⟨[], []⟩ ⟨[], []⟩).1 (by decide)).1).trans
      (by rfl)⟩

theorem mem_updAssoc {κ γ : Type} [DecidableEq κ] (m : List (κ × γ)) (k : κ)
    (d : γ) (f : γ → γ) (u : κ) (v : γ) (h : (u, v) ∈ updAssoc m k d f) :
    (u, v) ∈ m ∨ (u = k ∧ (v = f d ∨ ∃ v0, (u, v0) ∈ m ∧ v = f v0)) := by
  induction m with
  | nil =>
    simp only [updAssoc, List.mem_singleton, Prod.mk.injEq] at h
    exact Or.inr ⟨h.1, Or.inl h.2⟩
  | cons p rest ih =>
    obtain ⟨k0, w⟩ := p
    rw [updAssoc] at h
    by_cases hk : k0 = k
    · rw [if_pos hk] at h
      rcases List.mem_cons.mp h with h | h
      · rcases Prod.mk.injEq .. ▸ h with ⟨h1, h2⟩
        subst h1
        exact Or.inr ⟨hk, Or.inr ⟨w, List.mem_cons_self _ _, by
          simpa using congrArg id h⟩⟩
      · exact Or.inl (List.mem_cons_of_mem _ h)
    · rw [if_neg hk] at h
      rcases List.mem_cons.mp h with h | h
      · exact Or.inl (List.mem_cons.mpr (Or.inl h))
      · rcases ih h with h1 | ⟨h1, h2⟩
        · exact Or.inl (List.mem_cons_of_mem _ h1)
        · refine Or.inr ⟨h1, ?_⟩
          rcases h2 with h2 | ⟨v0, hv0, hv⟩
          · exact Or.inl h2
          · exact Or.inr ⟨v0, List.mem_cons_of_mem _ hv0, hv⟩

theorem hasKey_updAssoc {κ γ : Type} [DecidableEq κ] (m : List (κ × γ)) (k : κ)
    (d : γ) (f : γ → γ) (u : κ) (h : ∃ v, (u, v) ∈ updAssoc m k d f) :
    (∃ v, (u, v) ∈ m) ∨ u = k := by
  rcases h with ⟨v, hv⟩
  rcases mem_updAssoc m k d f u v hv with h | ⟨h, h2⟩
  · exact Or.inl ⟨v, h⟩
  · rcases h2 with _ | ⟨v0, hv0, _⟩
    · exact Or.inr h
    · exact Or.inl ⟨v0, hv0⟩

theorem addIssueStat_counts (acc : UStats) (uid issue : String) (eng : ℚ)
    (hinv : ∀ um ∈ acc, ∀ q ∈ um.2, (1 : ℚ) ≤ q.2.count) :
    ∀ um ∈ addIssueStat acc uid issue eng, ∀ q ∈ um.2, (1 : ℚ) ≤ q.2.count := by
  intro um hum q hq
  obtain ⟨u, mlist⟩ := um
  rcases mem_updAssoc acc uid []
      (fun m => updAssoc m issue ⟨0, 0⟩ (fun s => ⟨s.count + 1, s.eng_sum + eng⟩))
      u mlist hum with h | ⟨_, hv⟩
  · exact hinv _ h q hq
  · have inner : ∀ m0 : List (String × Stat),
        (∀ q0 ∈ m0, (1 : ℚ) ≤ q0.2.count) →
        ∀ q0 ∈ updAssoc m0 issue (⟨0, 0⟩ : Stat)
          (fun s => ⟨s.count + 1, s.eng_sum + eng⟩), (1 : ℚ) ≤ q0.2.count := by
      intro m0 hm0 q0 hq0
      obtain ⟨iss, st⟩ := q0
      rcases mem_updAssoc m0 issue ⟨0, 0⟩
          (fun s => ⟨s.count + 1, s.eng_sum + eng⟩) iss st hq0 with h0 | ⟨_, hst⟩
      · exact hm0 _ h0
      · rcases hst with hst | ⟨s0, hs0, hst⟩
        · simp only [hst]
          norm_num
        · have h1 : (1 : ℚ) ≤ s0.count := hm0 _ hs0
          simp only [hst]
          have h2 : (1 : ℚ) ≤ s0.count + 1 := by linarith
          simpa using h2
    rcases hv with hv | ⟨m0, hm0, hv⟩
    · subst hv
      exact inner [] (by intro q0 h0; cases h0) q hq
    · subst hv
      exact inner m0 (fun q0 h0 => hinv _ hm0 q0 h0) q hq

theorem inner_fold_counts (issues : List String) (uid : String) (eng : ℚ)
    (acc : UStats) (hinv : ∀ um ∈ acc, ∀ q ∈ um.2, (1 : ℚ) ≤ q.2.count) :
    ∀ um ∈ issues.foldl (fun a i => addIssueStat a uid i eng) acc,
      ∀ q ∈ um.2, (1 : ℚ) ≤ q.2.count := by
  induction issues generalizing acc with
  | nil => exact hinv
  | cons i rest ih =>
    exact ih _ (addIssueStat_counts acc uid i eng hinv)

theorem inner_fold_keys (issues : List String) (uid : String) (eng : ℚ)
    (acc : UStats) (u : String)
    (h : ∃ v, (u, v) ∈ issues.foldl (fun a i => addIssueStat a uid i eng) acc) :
    (∃ v, (u, v) ∈ acc) ∨ (u = uid ∧ issues ≠ []) := by
  induction issues generalizing acc with
  | nil => exact Or.inl h
  | cons i rest ih =>
    rcases ih _ h with h1 | ⟨h1, _⟩
    · rcases hasKey_updAssoc acc uid []
        (fun m => updAssoc m i ⟨0, 0⟩ (fun s => ⟨s.count + 1, s.eng_sum + eng⟩))
        u h1 with h2 | h2
      · exact Or.inl h2
      · exact Or.inr ⟨h2, List.cons_ne_nil i rest⟩
    · exact Or.inr ⟨h1, List.cons_ne_nil i rest⟩

theorem outer_fold_counts (posts : List Post) (pmap : List (String × List String))
    (acc : UStats) (hinv : ∀ um ∈ acc, ∀ q ∈ um.2, (1 : ℚ) ≤ q.2.count) :
    ∀ um ∈ posts.foldl (fun acc p =>
        (dget pmap p.post_id []).foldl
          (fun a issue => addIssueStat a p.user_id issue
            (p.likes + p.shares + p.comments)) acc) acc,
      ∀ q ∈ um.2, (1 : ℚ) ≤ q.2.count := by
  induction posts generalizing acc with
  | nil => exact hinv
  | cons p rest ih =>
    exact ih _ (inner_fold_counts _ _ _ _ hinv)

theorem outer_fold_keys (posts : List Post) (pmap : List (String × List String))
    (acc : UStats) (u : String)
    (h : ∃ v, (u, v) ∈ posts.foldl (fun acc p =>
        (dget pmap p.post_id []).foldl
          (fun a issue => addIssueStat a p.user_id issue
            (p.likes + p.shares + p.comments)) acc) acc) :
    (∃ v, (u, v) ∈ acc) ∨
      ∃ p ∈ posts, p.user_id = u ∧ dget pmap p.post_id [] ≠ [] := by
  induction posts generalizing acc with
  | nil => exact Or.inl h
  | cons p rest ih =>
    rcases ih _ h with h1 | ⟨q, hq, hqu, hqi⟩
    · rcases inner_fold_keys _ _ _ _ _ h1 with h2 | ⟨h2, hne⟩
      · exact Or.inl h2
      · exact Or.inr ⟨p, List.mem_cons_self p rest, h2.symm, hne⟩
    · exact Or.inr ⟨q, List.mem_cons_of_mem p hq, hqu, hqi⟩

/-- C9: in the table produced by `compute_user_issue_stats`, an account key
exists only if that account authored at least one post whose issue list is
non-empty, and every stored (account, issue) entry has `count ≥ 1` — zero
counts are represented by absence, never stored. -/
theorem user_issue_stats_no_zero_entries (posts : List Post)
    (pmap : List (String × List String)) :
    (∀ uid, (∃ m, (uid, m) ∈ compute_user_issue_stats posts pmap) →
      ∃ p ∈ posts, p.user_id = uid ∧ dget pmap p.post_id [] ≠ []) ∧
    (∀ um ∈ compute_user_issue_stats posts pmap,
      ∀ q ∈ um.2, (1 : ℚ) ≤ q.2.count) := by
  constructor
  · intro uid h
    rw [compute_user_issue_stats] at h
    rcases outer_fold_keys posts pmap [] uid h with ⟨v, hv⟩ | h2
    · cases hv
    · exact h2
  · intro um hum
    rw [compute_user_issue_stats] at hum
    exact outer_fold_counts posts pmap [] (by intro um0 h0; cases h0) um hum

/-- Witness for C9: a single post by `u1` tagged with issue `x` puts `u1`
in the table with count 1, and the key's origin post is recovered. -/
theorem user_issue_stats_no_zero_entries_witness :
    (∃ m, ("u1", m) ∈
      compute_user_issue_stats [⟨"p1", "u1", 1, 2, 3⟩] [("p1", ["x"])]) ∧
    ∃ p ∈ [(⟨"p1", "u1", 1, 2, 3⟩ : Post)], p.user_id = "u1" ∧
      dget [("p1", ["x"])] p.post_id [] ≠ [] :=
  ⟨⟨[("x", ⟨1, 6⟩)], by
      norm_num [compute_user_issue_stats, addIssueStat, updAssoc, dget]⟩,
    (user_issue_stats_no_zero_entries [⟨"p1", "u1", 1, 2, 3⟩] [("p1", ["x"])]).1
      "u1" ⟨[("x", ⟨1, 6⟩)], by
        norm_num [compute_user_issue_stats, addIssueStat, updAssoc, dget]⟩⟩

theorem totalLen_tail_le {β : Type} (qs : List (List β)) :
    totalLen (qs.map List.tail) ≤ totalLen qs := by
  induction qs with
  | nil => simp [totalLen]
  | cons q rest ih =>
    simp only [totalLen, List.map_cons, List.sum_cons] at *
    have hq : q.tail.length ≤ q.length := by
      rw [List.length_tail]
      omega
    omega

theorem all_isEmpty_of_totalLen_zero {β : Type} (qs : List (List β))
    (h : totalLen qs = 0) : qs.all List.isEmpty = true := by
  induction qs with
  | nil => rfl
  | cons q rest ih =>
    simp only [totalLen, List.map_cons, List.sum_cons, Nat.add_eq_zero] at h
    simp only [List.all_cons, Bool.and_eq_true]
    exact ⟨by simp [List.isEmpty_iff, List.length_eq_zero.mp h.1],
      ih (by simp [totalLen, h.2])⟩

theorem totalLen_tail_lt {β : Type} (qs : List (List β))
    (h : ¬ qs.all List.isEmpty = true) :
    totalLen (qs.map List.tail) < totalLen qs := by
  induction qs with
  | nil => exact absurd rfl h
  | cons q rest ih =>
    simp only [List.all_cons, Bool.and_eq_true, not_and_or] at h
    simp only [totalLen, List.map_cons, List.sum_cons]
    rcases h with h | h
    · have hq : q ≠ [] := by
        intro he
        exact h (by simp [he])
      have h1 : q.tail.length < q.length := by
        rw [List.length_tail]
        have := List.length_pos.mpr hq
        omega
      have h2 := totalLen_tail_le rest
      simp only [totalLen] at h2
      omega
    · have h1 := ih h
      simp only [totalLen] at h1
      have hq : q.tail.length ≤ q.length := by
        rw [List.length_tail]
        omega
      omega

theorem allSweepsAux_all_empty {β : Type} (n : ℕ) (qs : List (List β))
    (h : qs.all List.isEmpty = true) : allSweepsAux n qs = [] := by
  cases n with
  | zero => rfl
  | succ n => rw [allSweepsAux, if_pos h]

theorem allSweepsAux_congr {β : Type} (n : ℕ) :
    ∀ (m : ℕ) (qs : List (List β)), totalLen qs ≤ n → totalLen qs ≤ m →
      allSweepsAux n qs = allSweepsAux m qs := by
  induction n with
  | zero =>
    intro m qs hn _
    have h := all_isEmpty_of_totalLen_zero qs (Nat.le_zero.mp hn)
    rw [allSweepsAux_all_empty 0 qs h, allSweepsAux_all_empty m qs h]
  | succ n ih =>
    intro m qs hn hm
    by_cases h : qs.all List.isEmpty = true
    · rw [allSweepsAux_all_empty _ qs h, allSweepsAux_all_empty m qs h]
    · have hlt := totalLen_tail_lt qs h
      cases m with
      | zero =>
        have := all_isEmpty_of_totalLen_zero qs (Nat.le_zero.mp hm)
        exact absurd this h
      | succ m =>
        rw [allSweepsAux, allSweepsAux, if_neg h, if_neg h]
        congr 1
        exact ih m (qs.map List.tail) (by omega) (by omega)

theorem allSweeps_all_empty {β : Type} (qs : List (List β))
    (h : qs.all List.isEmpty = true) : allSweeps qs = [] :=
  allSweepsAux_all_empty _ qs h

theorem allSweeps_step {β : Type} (qs : List (List β))
    (h : ¬ qs.all List.isEmpty = true) :
    allSweeps qs = sweepHeads qs ++ allSweeps (qs.map List.tail) := by
  rw [allSweeps, allSweeps]
  have hlt := totalLen_tail_lt qs h
  have h0 : totalLen qs ≠ 0 := by
    intro he
    exact h (all_isEmpty_of_totalLen_zero qs he)
  rcases Nat.exists_eq_succ_of_ne_zero h0 with ⟨n, hn⟩
  rw [hn, allSweepsAux, if_neg h]
  congr 1
  exact allSweepsAux_congr n _ (qs.map List.tail) (by omega) le_rfl

theorem mem_sweepHeads {β : Type} (qs : List (List β)) (x : β)
    (h : x ∈ sweepHeads qs) : ∃ q ∈ qs, x ∈ q := by
  induction qs with
  | nil => cases h
  | cons q rest ih =>
    cases q with
    | nil =>
      rcases ih (by simpa [sweepHeads] using h) with ⟨q0, hq0, hx⟩
      exact ⟨q0, List.mem_cons_of_mem _ hq0, hx⟩
    | cons y t =>
      rw [sweepHeads] at h
      rcases List.mem_cons.mp h with rfl | h
      · exact ⟨x :: t, List.mem_cons_self _ _, List.mem_cons_self x t⟩
      · rcases ih h with ⟨q0, hq0, hx⟩
        exact ⟨q0, List.mem_cons_of_mem _ hq0, hx⟩

theorem mem_allSweepsAux {β : Type} (n : ℕ) :
    ∀ (qs : List (List β)) (x : β), x ∈ allSweepsAux n qs → ∃ q ∈ qs, x ∈ q := by
  induction n with
  | zero => intro qs x h; cases h
  | succ n ih =>
    intro qs x h
    by_cases hall : qs.all List.isEmpty = true
    · rw [allSweepsAux, if_pos hall] at h
      cases h
    · rw [allSweepsAux, if_neg hall] at h
      rcases List.mem_append.mp h with h | h
      · exact mem_sweepHeads qs x h
      · rcases ih _ x h with ⟨q0, hq0, hx⟩
        rcases List.mem_map.mp hq0 with ⟨q1, hq1, rfl⟩
        exact ⟨q1, hq1, List.mem_of_mem_tail hx⟩

theorem mem_allSweeps {β : Type} (qs : List (List β)) (x : β)
    (h : x ∈ allSweeps qs) : ∃ q ∈ qs, x ∈ q :=
  mem_allSweepsAux _ qs x h

theorem getD_map_tail {β : Type} (qs : List (List β)) (i : ℕ) :
    (qs.map List.tail).getD i [] = (qs.getD i []).tail := by
  induction qs generalizing i with
  | nil => cases i <;> simp
  | cons q rest ih =>
    cases i with
    | zero => simp
    | succ i => simpa using ih i

theorem exists_getD_of_mem {β : Type} (qs : List (List β)) (Q : List β)
    (h : Q ∈ qs) : ∃ i, qs.getD i [] = Q := by
  induction qs with
  | nil => cases h
  | cons q rest ih =>
    rcases List.mem_cons.mp h with rfl | h
    · exact ⟨0, rfl⟩
    · rcases ih h with ⟨i, hi⟩
      exact ⟨i + 1, by simpa using hi⟩

theorem sweepHeads_countP_zero {β : Type} (p : β → Bool) (qs : List (List β))
    (hall : ∀ j, ∀ x ∈ qs.getD j [], ¬ p x = true) :
    (sweepHeads qs).countP p = 0 := by
  rw [List.countP_eq_zero]
  intro a ha
  rcases mem_sweepHeads qs a ha with ⟨Q, hQ, haQ⟩
  rcases exists_getD_of_mem qs Q hQ with ⟨i, hi⟩
  exact hall i a (hi ▸ haQ)

theorem allSweeps_countP_zero {β : Type} (p : β → Bool) (qs : List (List β))
    (hall : ∀ j, ∀ x ∈ qs.getD j [], ¬ p x = true) :
    (allSweeps qs).countP p = 0 := by
  rw [List.countP_eq_zero]
  intro a ha
  rcases mem_allSweeps qs a ha with ⟨Q, hQ, haQ⟩
  rcases exists_getD_of_mem qs Q hQ with ⟨i, hi⟩
  exact hall i a (hi ▸ haQ)

theorem countP_sweepHeads_le_one {β : Type} (p : β → Bool) :
    ∀ (qs : List (List β)) (i : ℕ),
      (∀ j, j ≠ i → ∀ x ∈ qs.getD j [], ¬ p x = true) →
      (sweepHeads qs).countP p ≤ 1 := by
  intro qs
  induction qs with
  | nil => intro i _; simp [sweepHeads]
  | cons q rest ih =>
    intro i hother
    cases i with
    | zero =>
      have hrest : (sweepHeads rest).countP p = 0 := by
        apply sweepHeads_countP_zero
        intro j x hx
        exact hother (j + 1) (by omega) x (by simpa using hx)
      cases q with
      | nil =>
        rw [sweepHeads]
        omega
      | cons y t =>
        rw [sweepHeads, List.countP_cons]
        by_cases hy : p y = true
        · rw [if_pos hy]
          omega
        · rw [if_neg hy]
          omega
    | succ i0 =>
      have hih := ih i0 (fun j hj x hx =>
        hother (j + 1) (by omega) x (by simpa using hx))
      cases q with
      | nil => rw [sweepHeads]; exact hih
      | cons y t =>
        have hy : ¬ p y = true :=
          hother 0 (by omega) y (List.mem_cons_self y t)
        rw [sweepHeads, List.countP_cons, if_neg hy]
        omega

theorem countP_sweepHeads_eq_one {β : Type} (p : β → Bool) :
    ∀ (qs : List (List β)) (i : ℕ),
      (∀ x ∈ qs.getD i [], p x = true) →
      (∀ j, j ≠ i → ∀ x ∈ qs.getD j [], ¬ p x = true) →
      qs.getD i [] ≠ [] →
      (sweepHeads qs).countP p = 1 := by
  intro qs
  induction qs with
  | nil =>
    intro i _ _ hne
    exact absurd (by cases i <;> rfl) hne
  | cons q rest ih =>
    intro i hown hother hne
    cases i with
    | zero =>
      have hrest : (sweepHeads rest).countP p = 0 := by
        apply sweepHeads_countP_zero
        intro j x hx
        exact hother (j + 1) (by omega) x (by simpa using hx)
      cases q with
      | nil => exact absurd rfl hne
      | cons y t =>
        have hy : p y = true := hown y (List.mem_cons_self y t)
        rw [sweepHeads, List.countP_cons, if_pos hy]
        omega
    | succ i0 =>
      have hih := ih i0 (fun x hx => hown x (by simpa using hx))
        (fun j hj x hx => hother (j + 1) (by omega) x (by simpa using hx))
        (by simpa using hne)
      cases q with
      | nil => rw [sweepHeads]; exact hih
      | cons y t =>
        have hy : ¬ p y = true :=
          hother 0 (by omega) y (List.mem_cons_self y t)
        rw [sweepHeads, List.countP_cons, if_neg hy]
        omega

/-- Round-robin fairness over the sweeps of a family of queues: when queue
`i` holds exactly the `p`-elements and queue `j` exactly the `q`-elements,
then on every prefix of the output either queue `i` has contributed at most
one element more than queue `j`, or queue `j` has been fully drained. -/
theorem rr_fair_aux {β : Type} (p q : β → Bool) :
    ∀ (n : ℕ) (qs : List (List β)) (i j : ℕ) (m : ℕ),
      totalLen qs ≤ n →
      (∀ x ∈ qs.getD i [], p x = true) →
      (∀ j0, j0 ≠ i → ∀ x ∈ qs.getD j0 [], ¬ p x = true) →
      (∀ x ∈ qs.getD j [], q x = true) →
      (∀ j0, j0 ≠ j → ∀ x ∈ qs.getD j0 [], ¬ q x = true) →
      i ≠ j →
      ((allSweeps qs).take m).countP p ≤ ((allSweeps qs).take m).countP q + 1 ∨
        ((allSweeps qs).take m).countP q = (qs.getD j []).length := by
  intro n
  induction n with
  | zero =>
    intro qs i j m hn _ _ _ _ _
    rw [allSweeps_all_empty qs (all_isEmpty_of_totalLen_zero qs (Nat.le_zero.mp hn))]
    simp
  | succ n ih =>
    intro qs i j m hn hpown hpoth hqown hqoth hij
    by_cases hall : qs.all List.isEmpty = true
    · rw [allSweeps_all_empty qs hall]
      simp
    · rw [allSweeps_step qs hall, List.take_append_eq_append_take,
        List.countP_append, List.countP_append]
      have hple : ((sweepHeads qs).take m).countP p ≤ 1 :=
        le_trans (List.Sublist.countP_le p (List.take_sublist m _))
          (countP_sweepHeads_le_one p qs i hpoth)
      have hfuel : totalLen (qs.map List.tail) ≤ n := by
        have := totalLen_tail_lt qs hall
        omega
      have hp' : ∀ x ∈ (qs.map List.tail).getD i [], p x = true := by
        intro x hx
        rw [getD_map_tail] at hx
        exact hpown x (List.mem_of_mem_tail hx)
      have hpoth' : ∀ j0, j0 ≠ i → ∀ x ∈ (qs.map List.tail).getD j0 [],
          ¬ p x = true := by
        intro j0 hj0 x hx
        rw [getD_map_tail] at hx
        exact hpoth j0 hj0 x (List.mem_of_mem_tail hx)
      have hq' : ∀ x ∈ (qs.map List.tail).getD j [], q x = true := by
        intro x hx
        rw [getD_map_tail] at hx
        exact hqown x (List.mem_of_mem_tail hx)
      have hqoth' : ∀ j0, j0 ≠ j → ∀ x ∈ (qs.map List.tail).getD j0 [],
          ¬ q x = true := by
        intro j0 hj0 x hx
        rw [getD_map_tail] at hx
        exact hqoth j0 hj0 x (List.mem_of_mem_tail hx)
      by_cases hm : m ≤ (sweepHeads qs).length
      · have hz : m - (sweepHeads qs).length = 0 := by omega
        rw [hz]
        simp only [List.take_zero, List.countP_nil]
        omega
      · push_neg at hm
        have htake : (sweepHeads qs).take m = sweepHeads qs :=
          List.take_of_length_le (by omega)
        rw [htake]
        rcases ih (qs.map List.tail) i j (m - (sweepHeads qs).length)
            hfuel hp' hpoth' hq' hqoth' hij with hL | hL
        · by_cases hqj : qs.getD j [] = []
          · right
            have hqs : (sweepHeads qs).countP q = 0 := by
              apply sweepHeads_countP_zero
              intro j0 x hx
              by_cases hj0 : j0 = j
              · subst hj0
                rw [hqj] at hx
                cases hx
              · exact hqoth j0 hj0 x hx
            have hqL : (allSweeps (qs.map List.tail)).countP q = 0 := by
              apply allSweeps_countP_zero
              intro j0 x hx
              rw [getD_map_tail] at hx
              by_cases hj0 : j0 = j
              · subst hj0
                rw [hqj] at hx
                cases hx
              · exact hqoth j0 hj0 x (List.mem_of_mem_tail hx)
            have hqt : (((allSweeps (qs.map List.tail)).take
                (m - (sweepHeads qs).length)).countP q) = 0 := by
              have := List.Sublist.countP_le q
                (List.take_sublist (m - (sweepHeads qs).length)
                  (allSweeps (qs.map List.tail)))
              omega
            rw [hqj]
            simp only [List.length_nil]
            omega
          · left
            have hqs : (sweepHeads qs).countP q = 1 :=
              countP_sweepHeads_eq_one q qs j hqown hqoth hqj
            have hps : (sweepHeads qs).countP p ≤ 1 :=
              countP_sweepHeads_le_one p qs i hpoth
            omega
        · right
          rw [getD_map_tail] at hL
          by_cases hqj : qs.getD j [] = []
          · have hqs : (sweepHeads qs).countP q = 0 := by
              apply sweepHeads_countP_zero
              intro j0 x hx
              by_cases hj0 : j0 = j
              · subst hj0
                rw [hqj] at hx
                cases hx
              · exact hqoth j0 hj0 x hx
            rw [hqj] at hL ⊢
            simp only [List.tail_nil, List.length_nil] at hL ⊢
            omega
          · have hqs : (sweepHeads qs).countP q = 1 :=
              countP_sweepHeads_eq_one q qs j hqown hqoth hqj
            have hlen : (qs.getD j []).tail.length = (qs.getD j []).length - 1 :=
              List.length_tail _
            have hpos : 0 < (qs.getD j []).length := List.length_pos.mpr hqj
            omega

theorem flatten_eq_nil_of_all_empty {β : Type} (qs : List (List β))
    (h : qs.all List.isEmpty = true) : qs.flatten = [] := by
  induction qs with
  | nil => rfl
  | cons q rest ih =>
    rcases Bool.and_eq_true .. ▸ (List.all_cons .. ▸ h) with ⟨h1, h2⟩
    rw [List.flatten_cons, List.isEmpty_iff.mp h1, List.nil_append]
    exact ih h2

theorem sweepHeads_flatten_tail_perm {β : Type} (qs : List (List β)) :
    List.Perm (sweepHeads qs ++ (qs.map List.tail).flatten) qs.flatten := by
  induction qs with
  | nil => simp [sweepHeads]
  | cons q rest ih =>
    cases q with
    | nil => simpa [sweepHeads] using ih
    | cons y t =>
      simp only [sweepHeads, List.map_cons, List.flatten_cons, List.cons_append,
        List.tail_cons]
      refine List.Perm.cons y ?_
      have h1 : List.Perm
          (sweepHeads rest ++ (t ++ (rest.map List.tail).flatten))
          (t ++ (sweepHeads rest ++ (rest.map List.tail).flatten)) := by
        rw [← List.append_assoc, ← List.append_assoc]
        exact List.Perm.append_right _ List.perm_append_comm
      exact h1.trans (List.Perm.append_left t ih)

theorem allSweepsAux_perm_flatten {β : Type} (n : ℕ) :
    ∀ qs : List (List β), totalLen qs ≤ n →
      List.Perm (allSweepsAux n qs) qs.flatten := by
  induction n with
  | zero =>
    intro qs hn
    have h := all_isEmpty_of_totalLen_zero qs (Nat.le_zero.mp hn)
    rw [allSweepsAux_all_empty 0 qs h, flatten_eq_nil_of_all_empty qs h]
  | succ n ih =>
    intro qs hn
    by_cases hall : qs.all List.isEmpty = true
    · rw [allSweepsAux_all_empty _ qs hall, flatten_eq_nil_of_all_empty qs hall]
    · rw [allSweepsAux, if_neg hall]
      have hfuel : totalLen (qs.map List.tail) ≤ n := by
        have := totalLen_tail_lt qs hall
        omega
      exact (List.Perm.append_left _ (ih _ hfuel)).trans
        (sweepHeads_flatten_tail_perm qs)

theorem allSweeps_perm_flatten {β : Type} (qs : List (List β)) :
    List.Perm (allSweeps qs) qs.flatten :=
  allSweepsAux_perm_flatten _ qs le_rfl

theorem seenKeys_aux_nodup {α β : Type} [DecidableEq α] (f : β → α) :
    ∀ (items : List β) (acc : List α), acc.Nodup →
      (items.foldl (fun ks it => if f it ∈ ks then ks else ks ++ [f it]) acc).Nodup := by
  intro items
  induction items with
  | nil => intro acc h; exact h
  | cons y rest ih =>
    intro acc h
    simp only [List.foldl_cons]
    by_cases hy : f y ∈ acc
    · rw [if_pos hy]
      exact ih acc h
    · rw [if_neg hy]
      apply ih
      rw [List.nodup_append]
      refine ⟨h, List.nodup_singleton _, ?_⟩
      intro a ha hb
      rw [List.mem_singleton] at hb
      subst hb
      exact hy ha

theorem seenKeys_nodup {α β : Type} [DecidableEq α] (f : β → α) (items : List β) :
    (seenKeys f items).Nodup :=
  seenKeys_aux_nodup f items [] List.nodup_nil

theorem mem_seenKeys_aux {α β : Type} [DecidableEq α] (f : β → α) :
    ∀ (items : List β) (acc : List α) (x : β),
      (f x ∈ acc ∨ x ∈ items) →
      f x ∈ items.foldl (fun ks it => if f it ∈ ks then ks else ks ++ [f it]) acc := by
  intro items
  induction items with
  | nil =>
    intro acc x h
    rcases h with h | h
    · exact h
    · cases h
  | cons y rest ih =>
    intro acc x h
    simp only [List.foldl_cons]
    apply ih
    rcases h with h | h
    · left
      by_cases hy : f y ∈ acc
      · rwa [if_pos hy]
      · rw [if_neg hy]
        exact List.mem_append_left _ h
    · rcases List.mem_cons.mp h with rfl | h
      · left
        by_cases hy : f x ∈ acc
        · rwa [if_pos hy]
        · rw [if_neg hy]
          exact List.mem_append_right _ (List.mem_singleton_self _)
      · exact Or.inr h

theorem mem_seenKeys {α β : Type} [DecidableEq α] (f : β → α) (items : List β)
    (x : β) (hx : x ∈ items) : f x ∈ seenKeys f items :=
  mem_seenKeys_aux f items [] x (Or.inr hx)

theorem count_groupRows_eq {α β : Type} [DecidableEq α] [DecidableEq β]
    (items : List β) (f : β → α) (g : α) (x : β) :
    (groupRows items f g).count x = if f x = g then items.count x else 0 := by
  rw [groupRows]
  by_cases hx : f x = g
  · rw [if_pos hx]
    exact List.count_filter (by simpa using hx)
  · rw [if_neg hx, List.count_eq_zero]
    intro hmem
    rcases List.mem_filter.mp hmem with ⟨_, hp⟩
    exact hx (by simpa using hp)

theorem count_flatten_groups_eq {α β : Type} [DecidableEq α] [DecidableEq β]
    (ks : List α) (items : List β) (f : β → α) (a : β) (hnd : ks.Nodup) :
    ((ks.map (fun g => groupRows items f g)).flatten).count a =
      if f a ∈ ks then items.count a else 0 := by
  induction ks with
  | nil => simp
  | cons g rest ih =>
    rcases List.nodup_cons.mp hnd with ⟨hg, hrest⟩
    simp only [List.map_cons, List.flatten_cons, List.count_append]
    rw [count_groupRows_eq, ih hrest]
    by_cases hx : f a = g
    · have hnr : f a ∉ rest := by rw [hx]; exact hg
      rw [if_pos hx, if_neg hnr, if_pos (List.mem_cons.mpr (Or.inl hx))]
      omega
    · rw [if_neg hx]
      by_cases hr : f a ∈ rest
      · rw [if_pos hr, if_pos (List.mem_cons.mpr (Or.inr hr))]
        omega
      · rw [if_neg hr, if_neg (by
          intro hmem
          rcases List.mem_cons.mp hmem with hmem | hmem
          · exact hx hmem
          · exact hr hmem)]

theorem flatten_groups_perm {α β : Type} [DecidableEq α] [DecidableEq β]
    (ks : List α) (items : List β) (f : β → α) (hnd : ks.Nodup)
    (hcov : ∀ x ∈ items, f x ∈ ks) :
    List.Perm ((ks.map (fun g => groupRows items f g)).flatten) items := by
  rw [List.perm_iff_count]
  intro a
  rw [count_flatten_groups_eq ks items f a hnd]
  by_cases ha : f a ∈ ks
  · rw [if_pos ha]
  · rw [if_neg ha]
    symm
    rw [List.count_eq_zero]
    intro hmem
    exact ha (hcov a hmem)

theorem getD_map_groupRows {α β : Type} [DecidableEq α] (items : List β)
    (f : β → α) (ks : List α) (i : ℕ) (hi : i < ks.length) :
    (ks.map (fun g => groupRows items f g)).getD i [] =
      groupRows items f (ks.get ⟨i, hi⟩) := by
  induction ks generalizing i with
  | nil => cases hi
  | cons g rest ih =>
    cases i with
    | zero => simp
    | succ i =>
      simp only [List.map_cons, List.getD_cons_succ, List.get_cons_succ]
      exact ih i (by simpa using hi)

theorem getD_map_groupRows_fin {α β : Type} [DecidableEq α] (items : List β)
    (f : β → α) (ks : List α) (i : Fin ks.length) :
    (ks.map (fun g => groupRows items f g)).getD i [] =
      groupRows items f (ks.get i) :=
  getD_map_groupRows items f ks i.val i.isLt

/-- C10: in diverse mode the selection never emits the same input row
occurrence twice — the round-robin partitions the filtered rows into
disjoint per-community queues, each element is popped at most once, so the
output is an ordered sub-multiset of the input score table: for every row
value, its multiplicity in the output is at most its multiplicity in the
input. -/
theorem select_diverse_no_dup (scores : List IssueScoreRecord) (issue : String)
    (k : ℕ) (x : IssueScoreRecord) :
    (RoundRobinSelector.select scores issue k true).count x ≤ scores.count x := by
  have hsel : RoundRobinSelector.select scores issue k true =
      ((allSweeps ((orderedGroupKeys (selectFrame scores issue).enum
        (commKey (selectFrame scores issue))).map
        (fun g => groupRows (selectFrame scores issue).enum
          (commKey (selectFrame scores issue)) g))).take k).map Prod.snd := rfl
  rw [hsel]
  have h1 : (((allSweeps ((orderedGroupKeys (selectFrame scores issue).enum
      (commKey (selectFrame scores issue))).map
      (fun g => groupRows (selectFrame scores issue).enum
        (commKey (selectFrame scores issue)) g))).take k).map Prod.snd).count x ≤
      ((allSweeps ((orderedGroupKeys (selectFrame scores issue).enum
        (commKey (selectFrame scores issue))).map
        (fun g => groupRows (selectFrame scores issue).enum
          (commKey (selectFrame scores issue)) g))).map Prod.snd).count x :=
    List.Sublist.count_le ((List.take_sublist _ _).map Prod.snd) x
  have hnd : (orderedGroupKeys (selectFrame scores issue).enum
      (commKey (selectFrame scores issue))).Nodup :=
    (perm_sortKey _ _).nodup_iff.mpr
      (seenKeys_nodup (commKey (selectFrame scores issue))
        (selectFrame scores issue).enum)
  have hcov : ∀ p ∈ (selectFrame scores issue).enum,
      commKey (selectFrame scores issue) p ∈
        orderedGroupKeys (selectFrame scores issue).enum
          (commKey (selectFrame scores issue)) := by
    intro p hp
    exact (perm_sortKey _ _).mem_iff.mpr
      (mem_seenKeys (commKey (selectFrame scores issue))
        (selectFrame scores issue).enum p hp)
  have hperm : List.Perm
      (allSweeps ((orderedGroupKeys (selectFrame scores issue).enum
        (commKey (selectFrame scores issue))).map
        (fun g => groupRows (selectFrame scores issue).enum
          (commKey (selectFrame scores issue)) g)))
      ((selectFrame scores issue).enum) :=
    (allSweeps_perm_flatten _).trans
      (flatten_groups_perm _ _ _ hnd hcov)
  have h3 : (selectFrame scores issue).enum.map Prod.snd =
      selectFrame scores issue :=
    List.enum_map_snd _
  have h2 := (hperm.map Prod.snd).count_eq x
  rw [h3] at h2
  have h4 : (selectFrame scores issue).count x =
      (scores.filter (fun r => r.issue = issue)).count x := by
    rw [selectFrame, sort_values_score_desc, List.count_reverse,
      (perm_sortKey _ _).count_eq x, List.count_reverse]
  have h5 : (scores.filter (fun r => r.issue = issue)).count x ≤
      scores.count x :=
    List.Sublist.count_le (List.filter_sublist _) x
  omega

/-- Counterexample for C4 as stated: three missing-community rows (scores
5, 4, 3) and a two-row community 0 (scores 2, 1).  In the real grouping the
community column is float64, each missing value is a fresh NaN dict key, so
the groups are [community 0 (size 2), row A, row B, row C (singletons)] and
the selection is [D, A, B, C, E]: within its first four records the
missing-community sentinel "community" has contributed three records while
community 0, which still has remaining supply, has contributed only one —
the claimed fairness bound fails for the sentinel community. -/
theorem selector_sentinel_group_counterexample :
    RoundRobinSelector.select
        [⟨"uA", "a", "x", 0, 0, 0, 0, 5, none⟩,
         ⟨"uB", "b", "x", 0, 0, 0, 0, 4, none⟩,
         ⟨"uC", "c", "x", 0, 0, 0, 0, 3, none⟩,
         ⟨"uD", "d", "x", 0, 0, 0, 0, 2, some 0⟩,
         ⟨"uE", "e", "x", 0, 0, 0, 0, 1, some 0⟩] "x" 5 true =
      [⟨"uD", "d", "x", 0, 0, 0, 0, 2, some 0⟩,
       ⟨"uA", "a", "x", 0, 0, 0, 0, 5, none⟩,
       ⟨"uB", "b", "x", 0, 0, 0, 0, 4, none⟩,
       ⟨"uC", "c", "x", 0, 0, 0, 0, 3, none⟩,
       ⟨"uE", "e", "x", 0, 0, 0, 0, 1, some 0⟩] ∧
    ¬ ((((RoundRobinSelector.select
          [⟨"uA", "a", "x", 0, 0, 0, 0, 5, none⟩,
           ⟨"uB", "b", "x", 0, 0, 0, 0, 4, none⟩,
           ⟨"uC", "c", "x", 0, 0, 0, 0, 3, none⟩,
           ⟨"uD", "d", "x", 0, 0, 0, 0, 2, some 0⟩,
           ⟨"uE", "e", "x", 0, 0, 0, 0, 1, some 0⟩] "x" 5 true).take 4).countP
            (fun r => r.community = (none : Option ℤ)) ≤
        (((RoundRobinSelector.select
          [⟨"uA", "a", "x", 0, 0, 0, 0, 5, none⟩,
           ⟨"uB", "b", "x", 0, 0, 0, 0, 4, none⟩,
           ⟨"uC", "c", "x", 0, 0, 0, 0, 3, none⟩,
           ⟨"uD", "d", "x", 0, 0, 0, 0, 2, some 0⟩,
           ⟨"uE", "e", "x", 0, 0, 0, 0, 1, some 0⟩] "x" 5 true).take 4).countP
            (fun r => r.community = some 0)) + 1) ∨
      (((RoundRobinSelector.select
          [⟨"uA", "a", "x", 0, 0, 0, 0, 5, none⟩,
           ⟨"uB", "b", "x", 0, 0, 0, 0, 4, none⟩,
           ⟨"uC", "c", "x", 0, 0, 0, 0, 3, none⟩,
           ⟨"uD", "d", "x", 0, 0, 0, 0, 2, some 0⟩,
           ⟨"uE", "e", "x", 0, 0, 0, 0, 1, some 0⟩] "x" 5 true).take 4).countP
            (fun r => r.community = some 0)) =
        ((selectFrame
          [⟨"uA", "a", "x", 0, 0, 0, 0, 5, none⟩,
           ⟨"uB", "b", "x", 0, 0, 0, 0, 4, none⟩,
           ⟨"uC", "c", "x", 0, 0, 0, 0, 3, none⟩,
           ⟨"uD", "d", "x", 0, 0, 0, 0, 2, some 0⟩,
           ⟨"uE", "e", "x", 0, 0, 0, 0, 1, some 0⟩] "x").filter
          (fun r => r.community = some 0)).length) := by
  constructor <;> decide

/-- C4 (amended): diverse-mode selection is round-robin fair over the groups
the code actually forms, not over community ids: rows with a community id
group by id, but when the frame mixes present and missing communities each
missing-community row is its own singleton group (its dict key is a fresh
float NaN), and only a frame with no communities at all keeps one shared
sentinel group.  Those groups are swept in descending size order with size
ties kept in first-seen order, a group that runs out of supply is skipped
on later sweeps, and on every prefix of the picked sequence a group has
contributed at most one record more than any other group unless that other
group's supply has been fully drained. -/
theorem selector_diverse_fair_nan_groups (scores : List IssueScoreRecord)
    (issue : String) (k : ℕ) :
    (RoundRobinSelector.select scores issue k true =
      (round_robin_by_group (selectFrame scores issue).enum
        (commKey (selectFrame scores issue)) k).map Prod.snd) ∧
    ((orderedGroupKeys (selectFrame scores issue).enum
        (commKey (selectFrame scores issue))).Pairwise
      (fun g h =>
        (groupRows (selectFrame scores issue).enum
          (commKey (selectFrame scores issue)) h).length ≤
          (groupRows (selectFrame scores issue).enum
            (commKey (selectFrame scores issue)) g).length)) ∧
    (∀ c : ℕ,
      (orderedGroupKeys (selectFrame scores issue).enum
          (commKey (selectFrame scores issue))).filter
          (fun g => (groupRows (selectFrame scores issue).enum
            (commKey (selectFrame scores issue)) g).length = c) =
        (seenKeys (commKey (selectFrame scores issue))
            (selectFrame scores issue).enum).filter
          (fun g => (groupRows (selectFrame scores issue).enum
            (commKey (selectFrame scores issue)) g).length = c)) ∧
    (∀ g h : CommKey,
      g ∈ orderedGroupKeys (selectFrame scores issue).enum
        (commKey (selectFrame scores issue)) →
      h ∈ orderedGroupKeys (selectFrame scores issue).enum
        (commKey (selectFrame scores issue)) →
      g ≠ h → ∀ m : ℕ,
      ((round_robin_by_group (selectFrame scores issue).enum
          (commKey (selectFrame scores issue)) k).take m).countP
          (fun p => commKey (selectFrame scores issue) p = g) ≤
        ((round_robin_by_group (selectFrame scores issue).enum
            (commKey (selectFrame scores issue)) k).take m).countP
          (fun p => commKey (selectFrame scores issue) p = h) + 1 ∨
      ((round_robin_by_group (selectFrame scores issue).enum
          (commKey (selectFrame scores issue)) k).take m).countP
          (fun p => commKey (selectFrame scores issue) p = h) =
        (groupRows (selectFrame scores issue).enum
          (commKey (selectFrame scores issue)) h).length) := by
  refine ⟨rfl, ?_, ?_, ?_⟩
  · have hpw := pairwise_sortKey
      (fun g => -((groupRows (selectFrame scores issue).enum
        (commKey (selectFrame scores issue)) g).length : ℤ))
      (seenKeys (commKey (selectFrame scores issue))
        (selectFrame scores issue).enum)
    refine hpw.imp ?_
    intro a b hab
    have h1 := neg_le_neg_iff.mp hab
    exact_mod_cast h1
  · intro c
    have hpred : ∀ (l : List CommKey),
        l.filter (fun g => (groupRows (selectFrame scores issue).enum
          (commKey (selectFrame scores issue)) g).length = c) =
        l.filter (fun g => -((groupRows (selectFrame scores issue).enum
          (commKey (selectFrame scores issue)) g).length : ℤ) = -(c : ℤ)) := by
      intro l
      apply List.filter_congr
      intro g _
      rw [decide_eq_decide]
      constructor
      · intro hh
        rw [hh]
      · intro hh
        have h2 := neg_inj.mp hh
        exact_mod_cast h2
    rw [hpred, hpred]
    exact filter_sortKey _ (-(c : ℤ)) _
  · intro g h hg hh hgh m
    have hnd : (orderedGroupKeys (selectFrame scores issue).enum
        (commKey (selectFrame scores issue))).Nodup :=
      (perm_sortKey _ _).nodup_iff.mpr
        (seenKeys_nodup (commKey (selectFrame scores issue))
          (selectFrame scores issue).enum)
    set en := (selectFrame scores issue).enum with hen
    set fc := commKey (selectFrame scores issue) with hfc
    set ks := orderedGroupKeys en fc with hks
    rcases List.mem_iff_get.mp hg with ⟨ig, hkig⟩
    rcases List.mem_iff_get.mp hh with ⟨jh, hkjh⟩
    have hij : (ig : ℕ) ≠ (jh : ℕ) := by
      intro he
      apply hgh
      rw [← hkig, ← hkjh]
      congr 1
      exact Fin.ext he
    have hpown : ∀ x ∈ (ks.map
        (fun g0 => groupRows en fc g0)).getD (ig : ℕ) [],
        (fun p : ℕ × IssueScoreRecord => decide (fc p = g)) x = true := by
      intro x hx
      rw [getD_map_groupRows_fin en _ ks ig, hkig] at hx
      rcases List.mem_filter.mp hx with ⟨_, hp⟩
      simpa using hp
    have hpoth : ∀ j0, j0 ≠ (ig : ℕ) →
        ∀ x ∈ (ks.map (fun g0 => groupRows en fc g0)).getD j0 [],
        ¬ (fun p : ℕ × IssueScoreRecord => decide (fc p = g)) x = true := by
      intro j0 hj0 x hx
      by_cases hlt : j0 < ks.length
      · rw [getD_map_groupRows en _ ks _ hlt] at hx
        rcases List.mem_filter.mp hx with ⟨_, hp⟩
        have hcx : fc x = ks.get ⟨j0, hlt⟩ := by simpa using hp
        simp only [decide_eq_true_eq]
        intro hxg
        apply hj0
        have heq : ks.get ⟨j0, hlt⟩ = ks.get ig := by
          rw [hkig, ← hxg, hcx]
        have heq2 := (List.Nodup.get_inj_iff hnd).mp heq
        exact congrArg Fin.val heq2
      · rw [List.getD_eq_default _ _
          (by simpa using Nat.le_of_not_lt hlt)] at hx
        cases hx
    have hqown : ∀ x ∈ (ks.map
        (fun g0 => groupRows en fc g0)).getD (jh : ℕ) [],
        (fun p : ℕ × IssueScoreRecord => decide (fc p = h)) x = true := by
      intro x hx
      rw [getD_map_groupRows_fin en _ ks jh, hkjh] at hx
      rcases List.mem_filter.mp hx with ⟨_, hp⟩
      simpa using hp
    have hqoth : ∀ j0, j0 ≠ (jh : ℕ) →
        ∀ x ∈ (ks.map (fun g0 => groupRows en fc g0)).getD j0 [],
        ¬ (fun p : ℕ × IssueScoreRecord => decide (fc p = h)) x = true := by
      intro j0 hj0 x hx
      by_cases hlt : j0 < ks.length
      · rw [getD_map_groupRows en _ ks _ hlt] at hx
        rcases List.mem_filter.mp hx with ⟨_, hp⟩
        have hcx : fc x = ks.get ⟨j0, hlt⟩ := by simpa using hp
        simp only [decide_eq_true_eq]
        intro hxg
        apply hj0
        have heq : ks.get ⟨j0, hlt⟩ = ks.get jh := by
          rw [hkjh, ← hxg, hcx]
        have heq2 := (List.Nodup.get_inj_iff hnd).mp heq
        exact congrArg Fin.val heq2
      · rw [List.getD_eq_default _ _
          (by simpa using Nat.le_of_not_lt hlt)] at hx
        cases hx
    have hmain := rr_fair_aux
      (fun p : ℕ × IssueScoreRecord => decide (fc p = g))
      (fun p : ℕ × IssueScoreRecord => decide (fc p = h))
      (totalLen (ks.map (fun g0 => groupRows en fc g0)))
      (ks.map (fun g0 => groupRows en fc g0))
      (ig : ℕ) (jh : ℕ) (min m k) le_rfl
      hpown hpoth hqown hqoth hij
    have hsel : round_robin_by_group en fc k =
        (allSweeps (ks.map (fun g0 => groupRows en fc g0))).take k := rfl
    rw [hsel, List.take_take]
    rw [getD_map_groupRows_fin en _ ks jh, hkjh] at hmain
    exact hmain

/-- Witness for C4's amended theorem at the mixed five-row table of the
counterexample: the community-0 group and the first singleton NaN group are
both swept keys, and the fairness disjunction is obtained from the theorem
at the full prefix. -/
theorem selector_diverse_fair_nan_groups_witness :
    (CommKey.comm (some 0) ∈ orderedGroupKeys (selectFrame
      ([⟨"uA", "a", "x", 0, 0, 0, 0, 5, none⟩,
        ⟨"uB", "b", "x", 0, 0, 0, 0, 4, none⟩,
        ⟨"uC", "c", "x", 0, 0, 0, 0, 3, none⟩,
        ⟨"uD", "d", "x", 0, 0, 0, 0, 2, some 0⟩,
        ⟨"uE", "e", "x", 0, 0, 0, 0, 1, some 0⟩] : List IssueScoreRecord)
      "x").enum (commKey (selectFrame
      ([⟨"uA", "a", "x", 0, 0, 0, 0, 5, none⟩,
        ⟨"uB", "b", "x", 0, 0, 0, 0, 4, none⟩,
        ⟨"uC", "c", "x", 0, 0, 0, 0, 3, none⟩,
        ⟨"uD", "d", "x", 0, 0, 0, 0, 2, some 0⟩,
        ⟨"uE", "e", "x", 0, 0, 0, 0, 1, some 0⟩] : List IssueScoreRecord)
      "x"))) ∧
    (CommKey.nanRow 0 ∈ orderedGroupKeys (selectFrame
      ([⟨"uA", "a", "x", 0, 0, 0, 0, 5, none⟩,
        ⟨"uB", "b", "x", 0, 0, 0, 0, 4, none⟩,
        ⟨"uC", "c", "x", 0, 0, 0, 0, 3, none⟩,
        ⟨"uD", "d", "x", 0, 0, 0, 0, 2, some 0⟩,
        ⟨"uE", "e", "x", 0, 0, 0, 0, 1, some 0⟩] : List IssueScoreRecord)
      "x").enum (commKey (selectFrame
      ([⟨"uA", "a", "x", 0, 0, 0, 0, 5, none⟩,
        ⟨"uB", "b", "x", 0, 0, 0, 0, 4, none⟩,
        ⟨"uC", "c", "x", 0, 0, 0, 0, 3, none⟩,
        ⟨"uD", "d", "x", 0, 0, 0, 0, 2, some 0⟩,
        ⟨"uE", "e", "x", 0, 0, 0, 0, 1, some 0⟩] : List IssueScoreRecord)
      "x"))) ∧
    (CommKey.comm (some 0) ≠ CommKey.nanRow 0) ∧
    (((round_robin_by_group (selectFrame
        ([⟨"uA", "a", "x", 0, 0, 0, 0, 5, none⟩,
          ⟨"uB", "b", "x", 0, 0, 0, 0, 4, none⟩,
          ⟨"uC", "c", "x", 0, 0, 0, 0, 3, none⟩,
          ⟨"uD", "d", "x", 0, 0, 0, 0, 2, some 0⟩,
          ⟨"uE", "e", "x", 0, 0, 0, 0, 1, some 0⟩] : List IssueScoreRecord)
        "x").enum (commKey (selectFrame
        ([⟨"uA", "a", "x", 0, 0, 0, 0, 5, none⟩,
          ⟨"uB", "b", "x", 0, 0, 0, 0, 4, none⟩,
          ⟨"uC", "c", "x", 0, 0, 0, 0, 3, none⟩,
          ⟨"uD", "d", "x", 0, 0, 0, 0, 2, some 0⟩,
          ⟨"uE", "e", "x", 0, 0, 0, 0, 1, some 0⟩] : List IssueScoreRecord)
        "x")) 5).take 5).countP
        (fun p => commKey (selectFrame
          ([⟨"uA", "a", "x", 0, 0, 0, 0, 5, none⟩,
            ⟨"uB", "b", "x", 0, 0, 0, 0, 4, none⟩,
            ⟨"uC", "c", "x", 0, 0, 0, 0, 3, none⟩,
            ⟨"uD", "d", "x", 0, 0, 0, 0, 2, some 0⟩,
            ⟨"uE", "e", "x", 0, 0, 0, 0, 1, some 0⟩] : List IssueScoreRecord)
          "x") p = CommKey.comm (some 0)) ≤
      ((round_robin_by_group (selectFrame
        ([⟨"uA", "a", "x", 0, 0, 0, 0, 5, none⟩,
          ⟨"uB", "b", "x", 0, 0, 0, 0, 4, none⟩,
          ⟨"uC", "c", "x", 0, 0, 0, 0, 3, none⟩,
          ⟨"uD", "d", "x", 0, 0, 0, 0, 2, some 0⟩,
          ⟨"uE", "e", "x", 0, 0, 0, 0, 1, some 0⟩] : List IssueScoreRecord)
        "x").enum (commKey (selectFrame
        ([⟨"uA", "a", "x", 0, 0, 0, 0, 5, none⟩,
          ⟨"uB", "b", "x", 0, 0, 0, 0, 4, none⟩,
          ⟨"uC", "c", "x", 0, 0, 0, 0, 3, none⟩,
          ⟨"uD", "d", "x", 0, 0, 0, 0, 2, some 0⟩,
          ⟨"uE", "e", "x", 0, 0, 0, 0, 1, some 0⟩] : List IssueScoreRecord)
        "x")) 5).take 5).countP
        (fun p => commKey (selectFrame
          ([⟨"uA", "a", "x", 0, 0, 0, 0, 5, none⟩,
            ⟨"uB", "b", "x", 0, 0, 0, 0, 4, none⟩,
            ⟨"uC", "c", "x", 0, 0, 0, 0, 3, none⟩,
            ⟨"uD", "d", "x", 0, 0, 0, 0, 2, some 0⟩,
            ⟨"uE", "e", "x", 0, 0, 0, 0, 1, some 0⟩] : List IssueScoreRecord)
          "x") p = CommKey.nanRow 0) + 1 ∨
      ((round_robin_by_group (selectFrame
        ([⟨"uA", "a", "x", 0, 0, 0, 0, 5, none⟩,
          ⟨"uB", "b", "x", 0, 0, 0, 0, 4, none⟩,
          ⟨"uC", "c", "x", 0, 0, 0, 0, 3, none⟩,
          ⟨"uD", "d", "x", 0, 0, 0, 0, 2, some 0⟩,
          ⟨"uE", "e", "x", 0, 0, 0, 0, 1, some 0⟩] : List IssueScoreRecord)
        "x").enum (commKey (selectFrame
        ([⟨"uA", "a", "x", 0, 0, 0, 0, 5, none⟩,
          ⟨"uB", "b", "x", 0, 0, 0, 0, 4, none⟩,
          ⟨"uC", "c", "x", 0, 0, 0, 0, 3, none⟩,
          ⟨"uD", "d", "x", 0, 0, 0, 0, 2, some 0⟩,
          ⟨"uE", "e", "x", 0, 0, 0, 0, 1, some 0⟩] : List IssueScoreRecord)
        "x")) 5).take 5).countP
        (fun p => commKey (selectFrame
          ([⟨"uA", "a", "x", 0, 0, 0, 0, 5, none⟩,
            ⟨"uB", "b", "x", 0, 0, 0, 0, 4, none⟩,
            ⟨"uC", "c", "x", 0, 0, 0, 0, 3, none⟩,
            ⟨"uD", "d", "x", 0, 0, 0, 0, 2, some 0⟩,
            ⟨"uE", "e", "x", 0, 0, 0, 0, 1, some 0⟩] : List IssueScoreRecord)
          "x") p = CommKey.nanRow 0) =
        (groupRows (selectFrame
          ([⟨"uA", "a", "x", 0, 0, 0, 0, 5, none⟩,
            ⟨"uB", "b", "x", 0, 0, 0, 0, 4, none⟩,
            ⟨"uC", "c", "x", 0, 0, 0, 0, 3, none⟩,
            ⟨"uD", "d", "x", 0, 0, 0, 0, 2, some 0⟩,
            ⟨"uE", "e", "x", 0, 0, 0, 0, 1, some 0⟩] : List IssueScoreRecord)
          "x").enum (commKey (selectFrame
          ([⟨"uA", "a", "x", 0, 0, 0, 0, 5, none⟩,
            ⟨"uB", "b", "x", 0, 0, 0, 0, 4, none⟩,
            ⟨"uC", "c", "x", 0, 0, 0, 0, 3, none⟩,
            ⟨"uD", "d", "x", 0, 0, 0, 0, 2, some 0⟩,
            ⟨"uE", "e", "x", 0, 0, 0, 0, 1, some 0⟩] : List IssueScoreRecord)
          "x")) (CommKey.nanRow 0)).length) :=
  ⟨by decide, by decide, by decide,
    (selector_diverse_fair_nan_groups
      ([⟨"uA", "a", "x", 0, 0, 0, 0, 5, none⟩,
        ⟨"uB", "b", "x", 0, 0, 0, 0, 4, none⟩,
        ⟨"uC", "c", "x", 0, 0, 0, 0, 3, none⟩,
        ⟨"uD", "d", "x", 0, 0, 0, 0, 2, some 0⟩,
        ⟨"uE", "e", "x", 0, 0, 0, 0, 1, some 0⟩] : List IssueScoreRecord)
      "x" 5).2.2.2 (CommKey.comm (some 0)) (CommKey.nanRow 0)
      (by decide) (by decide) (by decide) 5⟩

end VECTOR
